import Mathlib

/-!
# Log analysis server: format detection, date filters, parsers, framing

A shallow embedding of `server/server.cpp`, `server/parser/*.hpp` and the payload builder
of `client/client.cpp`.

* A `std::string` is a `List Char`, one `Char` per byte.
* `size_t` is a `Nat`. A position is at most the size of its string, and a `std::string` is
  shorter than `2^63` bytes, so adding a tag length or 1 to a position or to a length never
  wraps and is written `+`; a subtraction wraps below zero, as `size_t` does.
* A search result is an `Option Nat`; `none` is `std::string::npos`.
* A function that can leave by an uncaught C++ exception returns an `Option`; `none` is the
  exception.
* `unordered_map<string, int>` is an association list with one entry per key; its iteration
  order is the order of first insertion, which no statement below relies on.
-/

namespace LogAnalyzer

/-- A `std::string`: its bytes in order. -/
abbrev Str := List Char

/-! ## `std::string` primitives -/

/-- The value of `std::string::npos` for a 64-bit `size_t`. -/
def npos : Nat := 2 ^ 64 - 1

/-- The `size_t` a search result stands for: `npos` when nothing was found. -/
def posValue : Option Nat → Nat
  | some i => i
  | none => npos

/-- Subtraction `a - b` of `size_t` values, which are below `2^64`: the difference modulo
`2^64`. -/
def sizeSub (a b : Nat) : Nat := if b ≤ a then a - b else a + 2 ^ 64 - b

/-- The call `s.substr(pos, len)`: throws `std::out_of_range` when `pos > s.size()`, otherwise
the at most `len` characters from `pos` on. -/
def substr (s : Str) (pos len : Nat) : Option Str :=
  if s.length < pos then none else some ((s.drop pos).take len)

/-- The call `s.substr(pos)`, whose count defaults to `npos`: throws `std::out_of_range` when
`pos > s.size()`, otherwise the characters from `pos` to the end. -/
def substrFrom (s : Str) (pos : Nat) : Option Str :=
  if s.length < pos then none else some (s.drop pos)

/-- The call `s.find_first_not_of(set)`. -/
def find_first_not_of (set : Str) : Str → Option Nat
  | [] => none
  | c :: cs => if set.contains c then (find_first_not_of set cs).map (· + 1) else some 0

/-- The call `s.find_last_not_of(set)`. -/
def find_last_not_of (set : Str) : Str → Option Nat
  | [] => none
  | c :: cs =>
    match find_last_not_of set cs with
    | some i => some (i + 1)
    | none => if set.contains c then none else some 0

/-- Whether `needle` occurs in `s` at offset 0. -/
def startsWith (needle : Str) : Str → Bool
  | s => needle.isPrefixOf s

/-- The call `s.find(needle)`: the offset of the first occurrence. -/
def find (needle : Str) : Str → Option Nat
  | [] => if needle.isEmpty then some 0 else none
  | c :: cs => if startsWith needle (c :: cs) then some 0 else (find needle cs).map (· + 1)

/-- The call `s.find(needle, pos)`. -/
def findFrom (needle s : Str) (pos : Nat) : Option Nat :=
  if s.length < pos then none else (find needle (s.drop pos)).map (· + pos)

/-- The comparison `a < b` of `std::string`: lexicographic on unsigned bytes, a proper
prefix being smaller. -/
def strLt : Str → Str → Bool
  | _, [] => false
  | [], _ :: _ => true
  | a :: as, b :: bs =>
    if a.toNat < b.toNat then true
    else if b.toNat < a.toNat then false
    else strLt as bs

/-- The strings that successive calls `getline(stream, line, delim)` on a stream over the
given text store in `line`, up to the first call that fails. A call fails when the stream is
already at its end; otherwise it reads up to and including the next `delim`, or to the end. -/
def getlines (delim : Char) : Str → List Str
  | [] => []
  | c :: cs =>
    if c = delim then [] :: getlines delim cs
    else
      match getlines delim cs with
      | [] => [[c]]
      | l :: ls => (c :: l) :: ls

/-! ## `parser/log_parser.hpp` -/

/-- The grouping dimension. -/
inductive AnalysisType
  | BY_USER
  | BY_IP
  | BY_LOG_LEVEL
  deriving DecidableEq, Repr

/-- The result type `unordered_map<string, int>` of `LogParser::parse`. -/
abbrev CountTable := List (Str × Nat)

/-- The statement `++result[key]`: the entry of `key` is created at 0 when absent, then
incremented. -/
def increment (key : Str) : CountTable → CountTable
  | [] => [(key, 1)]
  | (k, n) :: rest => if k = key then (k, n + 1) :: rest else (k, n) :: increment key rest

/-- The count stored for `key`, 0 when the table has no such entry. -/
def countOf (key : Str) : CountTable → Nat
  | [] => 0
  | (k, n) :: rest => if k = key then n else countOf key rest

/-- The sum of all counts of a table. -/
def total (t : CountTable) : Nat := (t.map Prod.snd).sum

/-! ## `parser/txt_parser.hpp` -/

/-- The trimming of one `|`-separated part (the body of the inner `getline` loop). -/
def trimPart (part : Str) : Option Str :=
  match find_first_not_of " \t".toList part with
  | none => some []
  | some start =>
    substr part start (sizeSub (posValue (find_last_not_of " \t".toList part)) start + 1)

/-- The lambda `extractValue` of `TXTParser::parse`. -/
def extractValue (field : Str) : Option Str :=
  match find [':'] field with
  | none => some []
  | some pos => do
    let val ← substrFrom field (pos + 1)
    match find_first_not_of " \t".toList val with
    | none => some []
    | some s =>
      substr val s (sizeSub (posValue (find_last_not_of " \t".toList val)) s + 1)

/-- The parts of a line: the inner `getline(ls, part, '|')` loop, every part trimmed. -/
def splitParts (line : Str) : Option (List Str) :=
  (getlines '|' line).mapM trimPart

/-- The final trim of the chosen key: `find_first_not_of`, `find_last_not_of` and `substr`
with no test for `npos`. -/
def trimKey (key : Str) : Option Str :=
  let start := posValue (find_first_not_of " \t\r\n".toList key)
  let stop := posValue (find_last_not_of " \t\r\n".toList key)
  substr key start (sizeSub stop start + 1)

/-- The key `TXTParser::parse` selects for a line that has at least five parts. -/
def txtKey (type : AnalysisType) (parts : List Str) : Option Str := do
  let level := parts.getD 1 []
  let userField := parts.getD 3 []
  let ipField := parts.getD 4 []
  let userId ← extractValue userField
  let ip ← extractValue ipField
  let key :=
    match type with
    | .BY_USER => userId
    | .BY_IP => ip
    | .BY_LOG_LEVEL => level
  trimKey key

/-- One iteration of the outer loop of `TXTParser::parse` on `line`. -/
def txtStep (type : AnalysisType) (result : CountTable) (line : Str) : Option CountTable :=
  if line.isEmpty then some result
  else do
    let parts ← splitParts line
    if parts.length < 5 then some result
    else do
      let key ← txtKey type parts
      some (increment key result)

/-- The method `TXTParser::parse` on the payload `dataStr`. -/
def TXTParser.parse (dataStr : Str) (type : AnalysisType) : Option CountTable :=
  (getlines '\n' dataStr).foldlM (txtStep type) []

/-! ## The JSON library

`parser/lib/nlohmann/json.hpp` is the third-party library *JSON for Modern C++*. A document is
a `Json` value (documents with floating-point numbers are not represented). Text is turned
into a value by the library's stream extraction `iss >> j` and a value into text by `dump()`;
both are parameters `parseJson` and `dump` of the functions that call them, `parseJson`
answering `none` where the library throws a parse error. -/

/-- A value of `nlohmann::json`. An object lists its members, the first entry of a key being
the member of that key. -/
inductive Json
  | null
  | bool (b : Bool)
  | num (n : Int)
  | str (s : Str)
  | arr (elems : List Json)
  | obj (members : List (Str × Json))

/-- The values a range-based `for` over a `json` visits: the elements of an array, the member
values of an object, nothing for `null`, and the value itself otherwise. -/
def Json.items : Json → List Json
  | .arr elems => elems
  | .obj members => members.map Prod.snd
  | .null => []
  | v => [v]

/-- The call `entry[key]` on a `const json`. On an object without the key the library asserts
that the key is there (the behaviour is undefined without assertions); on a value that is not
an object it throws `type_error`. Both are `none`. -/
def Json.atConst (entry : Json) (key : Str) : Option Json :=
  match entry with
  | .obj members => members.lookup key
  | _ => none

/-- The conversion of a 64-bit integer to `int`. -/
def toInt32 (n : Int) : Int := (n + 2 ^ 31) % 2 ^ 32 - 2 ^ 31

/-- The call `get<int>()`: numbers and booleans convert, anything else throws `type_error`. -/
def Json.getInt : Json → Option Int
  | .num n => some (toInt32 n)
  | .bool b => some (if b then 1 else 0)
  | _ => none

/-- The call `get<string>()`: throws `type_error` unless the value is a string. -/
def Json.getString : Json → Option Str
  | .str s => some s
  | _ => none

/-- The call `entry.value(key, dflt)` with a string default: the member converted to a string
when the key is there, the default when it is not; throws `type_error` when `entry` is not an
object or the member is not a string. -/
def Json.valueString (entry : Json) (key dflt : Str) : Option Str :=
  match entry with
  | .obj members =>
    match members.lookup key with
    | some v => v.getString
    | none => some dflt
  | _ => none

/-- The call `std::to_string` on an `int`. -/
def to_string (i : Int) : Str := (toString i).toList

/-! ## `parser/json_parser.hpp` -/

/-- The key `JSONParser::parse` selects for one element. -/
def jsonKey (type : AnalysisType) (entry : Json) : Option Str :=
  match type with
  | .BY_USER => do
    let v ← entry.atConst "user_id".toList
    let i ← v.getInt
    some (to_string i)
  | .BY_IP => do
    let v ← entry.atConst "ip_address".toList
    v.getString
  | .BY_LOG_LEVEL => do
    let v ← entry.atConst "log_level".toList
    v.getString

/-- One iteration of the loop of `JSONParser::parse`. -/
def jsonStep (type : AnalysisType) (result : CountTable) (entry : Json) : Option CountTable := do
  let key ← jsonKey type entry
  if !key.isEmpty then some (increment key result) else some result

/-- The method `JSONParser::parse` on the payload `dataStr`. A parse error of the library is
caught and gives the empty table; an exception of the loop is not caught. -/
def JSONParser.parse (parseJson : Str → Option Json) (dataStr : Str) (type : AnalysisType) :
    Option CountTable :=
  match parseJson dataStr with
  | none => some []
  | some j => j.items.foldlM (jsonStep type) []

/-! ## `parser/xml_parser.hpp` -/

/-- The lambda `getTagValue` of `XMLParser::parse` and of `filterXmlByDate`. -/
def getTagValue (s tag : Str) : Option Str :=
  let opening := "<".toList ++ tag ++ ">".toList
  let closing := "</".toList ++ tag ++ ">".toList
  match find opening s with
  | none => some []
  | some p1 =>
    let p1 := p1 + opening.length
    match findFrom closing s p1 with
    | none => some []
    | some p2 => substr s p1 (sizeSub p2 p1)

/-- The key `XMLParser::parse` selects for the text of one entry. -/
def xmlKey (type : AnalysisType) (entry : Str) : Option Str := do
  let _ts ← getTagValue entry "timestamp".toList
  let level ← getTagValue entry "log_level".toList
  let user ← getTagValue entry "user_id".toList
  let ip ← getTagValue entry "ip_address".toList
  match type with
  | .BY_USER => some user
  | .BY_IP => some ip
  | .BY_LOG_LEVEL => some level

/-- The loop of `XMLParser::parse`, run for at most `fuel` iterations from position `pos`;
`none` when an exception is thrown or the iterations run out. -/
def xmlParseLoop (type : AnalysisType) (dataStr : Str) : Nat → Nat → CountTable → Option CountTable
  | 0, _, _ => none
  | fuel + 1, pos, result =>
    match findFrom "<log>".toList dataStr pos with
    | none => some result
    | some start =>
      match findFrom "</log>".toList dataStr start with
      | none => some result
      | some stop => do
        let entry ← substr dataStr (start + 5) (sizeSub stop (start + 5))
        let key ← xmlKey type entry
        xmlParseLoop type dataStr fuel (stop + 6)
          (if !key.isEmpty then increment key result else result)

/-- The method `XMLParser::parse` on the payload `dataStr`. -/
def XMLParser.parse (dataStr : Str) (type : AnalysisType) : Option CountTable :=
  xmlParseLoop type dataStr (dataStr.length + 1) 0 []

/-! ## `server.cpp`: format detection and date filters -/

/-- The log formats. -/
inductive FileType
  | JSON
  | XML
  | TXT
  deriving DecidableEq, Repr

/-- The function `detectFileType`. -/
def detectFileType (body : Str) : FileType :=
  match find_first_not_of " \t\r\n".toList body with
  | none => .TXT
  | some p =>
    let c := body.getD p ' '
    if c = '[' || c = '\x7b' then .JSON
    else if c = '<' then .XML
    else .TXT

/-- The test of both date bounds in `filterJsonByDate` and `filterTxtByDate`: whether the
record is skipped. -/
def outOfRange (fromDate toDate date : Str) : Bool :=
  (!fromDate.isEmpty && strLt date fromDate) || (!toDate.isEmpty && strLt toDate date)

/-- One iteration of the loop of `filterJsonByDate`. -/
def filterJsonStep (fromDate toDate : Str) (filtered : List Json) (entry : Json) :
    Option (List Json) := do
  let ts ← entry.valueString "timestamp".toList []
  if 10 ≤ ts.length then
    let date ← substr ts 0 10
    if outOfRange fromDate toDate date then some filtered else some (filtered ++ [entry])
  else some (filtered ++ [entry])

/-- The function `filterJsonByDate`. A body the library cannot parse is returned as it is; an
exception of the loop is not caught. -/
def filterJsonByDate (parseJson : Str → Option Json) (dump : Json → Str)
    (jsonBody fromDate toDate : Str) : Option Str :=
  match parseJson jsonBody with
  | none => some jsonBody
  | some arr => do
    let filtered ← arr.items.foldlM (filterJsonStep fromDate toDate) []
    some (dump (.arr filtered))

/-- One iteration of the loop of `filterTxtByDate`; `oss` is the text written so far. The
call `line.substr(0, 10)` starts at 0 and cannot throw. -/
def filterTxtStep (fromDate toDate : Str) (oss : Str) (line : Str) : Str :=
  if line.length < 10 then oss
  else
    let date := line.take 10
    if outOfRange fromDate toDate date then oss else oss ++ line ++ ['\n']

/-- The function `filterTxtByDate`. -/
def filterTxtByDate (txtBody fromDate toDate : Str) : Str :=
  (getlines '\n' txtBody).foldl (filterTxtStep fromDate toDate) []

/-- The date prefix `filterXmlByDate` extracts from a block. -/
def xmlDate (logBlock : Str) : Option Str := do
  let ts ← getTagValue logBlock "timestamp".toList
  if 10 ≤ ts.length then substr ts 0 10 else some []

/-- The flag `keep` of `filterXmlByDate` for a block with the given date. -/
def xmlKeep (fromDate toDate date : Str) : Bool :=
  let keep := true
  let keep := if !fromDate.isEmpty && strLt date fromDate then false else keep
  let keep := if !toDate.isEmpty && strLt toDate date then false else keep
  keep

/-- The loop of `filterXmlByDate`, run for at most `fuel` iterations from position `pos`;
`none` when an exception is thrown or the iterations run out. -/
def filterXmlLoop (fromDate toDate xmlBody : Str) : Nat → Nat → Str → Option Str
  | 0, _, _ => none
  | fuel + 1, pos, filtered =>
    match findFrom "<log>".toList xmlBody pos with
    | none => some filtered
    | some start =>
      match findFrom "</log>".toList xmlBody start with
      | none => some filtered
      | some stop => do
        let blockEnd := stop + 6
        let logBlock ← substr xmlBody start (sizeSub blockEnd start)
        let date ← xmlDate logBlock
        filterXmlLoop fromDate toDate xmlBody fuel blockEnd
          (if xmlKeep fromDate toDate date then filtered ++ logBlock else filtered)

/-- The function `filterXmlByDate`. -/
def filterXmlByDate (xmlBody fromDate toDate : Str) : Option Str := do
  let filtered ← filterXmlLoop fromDate toDate xmlBody (xmlBody.length + 1) 0 "<logs>".toList
  some (filtered ++ "</logs>".toList)

/-! ## `server.cpp`: the session -/

/-- The outcome of splitting the received bytes into header and body. -/
inductive Framing
  | emptyPayload
  | noSeparator
  | raised
  | framed (header body : Str)
  deriving DecidableEq, Repr

/-- Steps 1 and 2 of `handleClient`: the test for an empty payload and the split on the first
blank line. -/
def splitHeaderBody (recvBuf : Str) : Framing :=
  if recvBuf.isEmpty then .emptyPayload
  else
    match find "\n\n".toList recvBuf with
    | none => .noSeparator
    | some hdrEnd =>
      match substr recvBuf 0 hdrEnd, substrFrom recvBuf (hdrEnd + 2) with
      | some header, some body => .framed header body
      | _, _ => .raised

/-- The three strings step 3 of `handleClient` fills from the header. -/
structure Directives where
  analysisStr : Str
  fromDate : Str
  toDate : Str
  deriving DecidableEq, Repr

/-- One iteration of the header loop; `line.rfind(p, 0) == 0` holds exactly when `line`
starts with `p`. -/
def headerStep (d : Directives) (line : Str) : Option Directives :=
  if startsWith "TYPE:".toList line then do
    let v ← substrFrom line 5
    some { d with analysisStr := v }
  else if startsWith "FROM:".toList line then do
    let v ← substrFrom line 5
    some { d with fromDate := v }
  else if startsWith "TO:".toList line then do
    let v ← substrFrom line 3
    some { d with toDate := v }
  else some d

/-- Step 3 of `handleClient`: the header loop. -/
def parseHeader (header : Str) : Option Directives :=
  (getlines '\n' header).foldlM headerStep { analysisStr := [], fromDate := [], toDate := [] }

/-- Step 4 of `handleClient`: the analysis type of the `TYPE` value. -/
def analysisTypeOf (analysisStr : Str) : AnalysisType :=
  if analysisStr = "USER".toList then .BY_USER
  else if analysisStr = "IP".toList then .BY_IP
  else .BY_LOG_LEVEL

/-- Step 6 of `handleClient`, first half: the date filter of the detected format. -/
def filterBody (parseJson : Str → Option Json) (dump : Json → Str) (ft : FileType)
    (body fromDate toDate : Str) : Option Str :=
  match ft with
  | .JSON => filterJsonByDate parseJson dump body fromDate toDate
  | .TXT => some (filterTxtByDate body fromDate toDate)
  | .XML => filterXmlByDate body fromDate toDate

/-- Steps 6 and 7 of `handleClient`, second half: the parser of the detected format run on
the filtered text. -/
def parseBody (parseJson : Str → Option Json) (ft : FileType) (filtered : Str)
    (type : AnalysisType) : Option CountTable :=
  match ft with
  | .JSON => JSONParser.parse parseJson filtered type
  | .TXT => TXTParser.parse filtered type
  | .XML => XMLParser.parse filtered type

/-- Step 8 of `handleClient`: the response text of a table. -/
def respond (result : CountTable) : Str :=
  if result.isEmpty then "[INFO] No entries matched your query.\n".toList
  else result.flatMap fun pair => pair.1 ++ ": ".toList ++ to_string pair.2 ++ "\n".toList

/-- What one run of `handleClient` does, in order: its two error lines on `cerr`, the calls
of the detector, of a filter and of a parser, the bytes it sends, the close of the socket, and
the end of the process by an uncaught exception. -/
inductive Event
  | error (msg : Str)
  | detect (body : Str)
  | filter (ft : FileType) (body : Str)
  | parse (ft : FileType) (filtered : Str)
  | send (bytes : Str)
  | close
  | terminate
  deriving DecidableEq, Repr

/-- Steps 3 to 8 of `handleClient` on a framed request. -/
def serve (parseJson : Str → Option Json) (dump : Json → Str) (header body : Str) :
    List Event :=
  match parseHeader header with
  | none => [.terminate]
  | some d =>
    let type := analysisTypeOf d.analysisStr
    let ft := detectFileType body
    match filterBody parseJson dump ft body d.fromDate d.toDate with
    | none => [.detect body, .filter ft body, .terminate]
    | some filtered =>
      match parseBody parseJson ft filtered type with
      | none => [.detect body, .filter ft body, .parse ft filtered, .terminate]
      | some result =>
        [.detect body, .filter ft body, .parse ft filtered, .send (respond result), .close]

/-- The function `handleClient` on the bytes received up to the end of input. -/
def handleClient (parseJson : Str → Option Json) (dump : Json → Str) (recvBuf : Str) :
    List Event :=
  match splitHeaderBody recvBuf with
  | .emptyPayload => [.error "[ERROR] Empty payload\n".toList, .close]
  | .noSeparator =>
    [.error "[ERROR] Invalid payload (no header/body separator)\n".toList, .close]
  | .raised => [.terminate]
  | .framed header body => serve parseJson dump header body

/-! ## `client/client.cpp` -/

/-- The payload `main` of the client builds for one file in the stream `msg`: the `TYPE`
line, the `FROM` and `TO` lines when their dates are not empty, a blank line, and the file
content. -/
def buildPayload (analysis fromDate toDate fileContent : Str) : Str :=
  let msg := "TYPE:".toList ++ analysis ++ "\n".toList
  let msg := if !fromDate.isEmpty then msg ++ ("FROM:".toList ++ fromDate ++ "\n".toList) else msg
  let msg := if !toDate.isEmpty then msg ++ ("TO:".toList ++ toDate ++ "\n".toList) else msg
  let msg := msg ++ "\n".toList
  msg ++ fileContent

/-! ## Definitions used to state the properties -/

/-- The first character of `body` that is not one of `blanks`. -/
def firstOutside (blanks body : Str) : Option Char :=
  body.find? fun c => !blanks.contains c

/-- The comparison `a <= b` of `std::string`. -/
def strLe (a b : Str) : Bool := !strLt b a

/-- An object whose `timestamp` member, when there is one, is a string. -/
def isLogObject : Json → Bool
  | .obj members =>
    match members.lookup "timestamp".toList with
    | none => true
    | some (.str _) => true
    | some _ => false
  | _ => false

/-- The elements `filterJsonByDate` is to output: those without a `timestamp`, those whose
`timestamp` has fewer than 10 characters, and those whose first 10 `timestamp` characters `d`
satisfy (`fromDate` is empty or `d >= fromDate`) and (`toDate` is empty or `d <= toDate`). -/
def jsonRetained (fromDate toDate : Str) : Json → Bool
  | .obj members =>
    match members.lookup "timestamp".toList with
    | some (.str ts) =>
      decide (ts.length < 10)
        || ((fromDate.isEmpty || strLe fromDate (ts.take 10))
          && (toDate.isEmpty || strLe (ts.take 10) toDate))
    | _ => true
  | _ => true

/-- A log element with the given `timestamp`. -/
def stamped (ts : Str) : Json :=
  .obj [("timestamp".toList, .str ts), ("log_level".toList, .str "INFO".toList)]

/-- A log element without `timestamp`. -/
def unstamped : Json := .obj [("log_level".toList, .str "INFO".toList)]

/-- A stand-in for `dump()` in examples: the number of items of the value, in decimal. -/
def dumpCount (j : Json) : Str := to_string j.items.length

/-- The lines `filterTxtByDate` is to output: those of at least 10 characters whose first 10
characters `d` satisfy (`fromDate` is empty or `d >= fromDate`) and (`toDate` is empty or
`d <= toDate`). -/
def txtRetained (fromDate toDate line : Str) : Bool :=
  decide (10 ≤ line.length)
    && ((fromDate.isEmpty || strLe fromDate (line.take 10))
      && (toDate.isEmpty || strLe (line.take 10) toDate))

/-- The spans `(start, stop)` the block scan of `filterXmlByDate` and of `XMLParser::parse`
finds from position `pos` on, in at most `fuel` iterations: `start` is the next `<log>` at or
after the position, `stop` the first `</log>` at or after `start`, and the scan resumes at
`stop + 6`; it ends when either search fails. -/
def xmlSpans (s : Str) : Nat → Nat → List (Nat × Nat)
  | 0, _ => []
  | fuel + 1, pos =>
    match findFrom "<log>".toList s pos with
    | none => []
    | some start =>
      match findFrom "</log>".toList s start with
      | none => []
      | some stop => (start, stop) :: xmlSpans s fuel (stop + 6)

/-- The block of a span: the text from `<log>` to the end of `</log>`. -/
def blockAt (s : Str) (span : Nat × Nat) : Str :=
  (s.drop span.1).take (span.2 + 6 - span.1)

/-- The `<log>...</log>` blocks the scan finds in a body, in order. -/
def xmlBlocks (xmlBody : Str) : List Str :=
  (xmlSpans xmlBody (xmlBody.length + 1) 0).map (blockAt xmlBody)

/-- Whether `filterXmlByDate` keeps a block: its flag `keep` at the date of the block. -/
def blockKept (fromDate toDate logBlock : Str) : Bool :=
  xmlKeep fromDate toDate ((xmlDate logBlock).getD [])

/-- A text that starts with `<log>` and whose only `</log>` is at its end. -/
def IsBlock (b : Str) : Prop :=
  "<log>".toList <+: b ∧ 6 ≤ b.length ∧ "</log>".toList <+: b.drop (b.length - 6)
    ∧ ∀ j, j < b.length - 6 → ¬ "</log>".toList <+: b.drop j

/-- The value of a directive read off the lines of a header: the text after `pre` of the last
line that begins with `pre`, and `cur` when no line begins with it. -/
def directiveValue (pre : Str) (lines : List Str) (cur : Str) : Str :=
  match (lines.filter (startsWith pre)).getLast? with
  | some line => line.drop pre.length
  | none => cur

/-- The response line for an empty table. -/
def noMatchLine : Str := "[INFO] No entries matched your query.\n".toList

/-- The response line of one table entry: key, colon and space, decimal count, newline. -/
def entryLine (pair : Str × Nat) : Str :=
  pair.1 ++ ": ".toList ++ to_string pair.2 ++ "\n".toList

/-- The `log_level` member of an element, when it is an object that has one that is a
string. -/
def logLevelOf : Json → Option Str
  | .obj members =>
    match members.lookup "log_level".toList with
    | some (.str s) => some s
    | _ => none
  | _ => none

/-- An object that carries a non-empty string `log_level`. -/
def hasLogLevel (e : Json) : Bool :=
  match logLevelOf e with
  | some s => !s.isEmpty
  | none => false

/-- The text `s` without its leading and trailing characters that belong to `set`. -/
def strip (set s : Str) : Str :=
  (s.dropWhile set.contains).rdropWhile set.contains

/-- The text after the first `':'` of a field, empty when the field has no `':'`. -/
def afterColon (field : Str) : Str :=
  (field.dropWhile fun c => c != ':').drop 1

/-- The text the key of a line is taken from, given the fields of the line: the second field
when grouping by log level, the text after the first `':'` of the fourth field when grouping
by user and of the fifth field when grouping by IP. -/
def keySource (type : AnalysisType) (fields : List Str) : Str :=
  match type with
  | .BY_LOG_LEVEL => fields.getD 1 []
  | .BY_USER => afterColon (fields.getD 3 [])
  | .BY_IP => afterColon (fields.getD 4 [])

/-- The key stated for a line with the given fields: the second field with surrounding spaces
and tabs removed when grouping by log level; the text after the first `':'` of the fourth or
fifth field with surrounding spaces, tabs, carriage returns and newlines removed when
grouping by user or IP. -/
def statedKey (type : AnalysisType) (fields : List Str) : Str :=
  match type with
  | .BY_LOG_LEVEL => strip " \t".toList (keySource type fields)
  | _ => strip " \t\r\n".toList (keySource type fields)

/-- The entry of a span: the text between its `<log>` and its `</log>`. -/
def entryAt (s : Str) (span : Nat × Nat) : Str :=
  (s.drop (span.1 + 5)).take (span.2 - (span.1 + 5))

/-- The entries of the `<log>...</log>` blocks the scan finds in a payload, in order. -/
def xmlEntries (dataStr : Str) : List Str :=
  (xmlSpans dataStr (dataStr.length + 1) 0).map (entryAt dataStr)

/-- The tag `XMLParser::parse` reads the key from. -/
def selectedTag : AnalysisType → Str
  | .BY_USER => "user_id".toList
  | .BY_IP => "ip_address".toList
  | .BY_LOG_LEVEL => "log_level".toList

/-- Reference for the text of a tag in an entry: the inner text of the first occurrence of
the open tag, up to the first close tag after it; empty when the open or the close tag is
absent. -/
def referenceTagText (tag entry : Str) : Str :=
  match find ("<".toList ++ tag ++ ">".toList) entry with
  | none => []
  | some p =>
    let inner := entry.drop (p + ("<".toList ++ tag ++ ">".toList).length)
    match find ("</".toList ++ tag ++ ">".toList) inner with
    | none => []
    | some q => inner.take q

/-- Reference scan of the entries, on the text that is still to be scanned: find the next
`<log>`, then the first `</log>` at or after it; the text between them is one entry and the
scan resumes just after that `</log>`; it stops as soon as either search fails. At most
`fuel` entries are taken. -/
def referenceEntries : Nat → Str → List Str
  | 0, _ => []
  | fuel + 1, text =>
    match find "<log>".toList text with
    | none => []
    | some i =>
      let fromOpen := text.drop i
      match find "</log>".toList fromOpen with
      | none => []
      | some j => (fromOpen.take j).drop 5 :: referenceEntries fuel (fromOpen.drop (j + 6))

/-- Reference for the count of one entry: one more for the text of the selected tag, nothing
when that text is empty. -/
def referenceCount (type : AnalysisType) (table : CountTable) (entry : Str) : CountTable :=
  if referenceTagText (selectedTag type) entry = [] then table
  else increment (referenceTagText (selectedTag type) entry) table

/-- Reference for `XMLParser::parse`: the counts of the entries of the reference scan. -/
def referenceParse (dataStr : Str) (type : AnalysisType) : CountTable :=
  (referenceEntries (dataStr.length + 1) dataStr).foldl (referenceCount type) []

/-- Whether an entry has no open tag `<tag>`. -/
def lacksTag (tag entry : Str) : Bool :=
  (find ("<".toList ++ tag ++ ">".toList) entry).isNone

/-- The entry of a block: the block without its leading `<log>` and its trailing `</log>`. -/
def entryOfBlock (b : Str) : Str :=
  (b.drop 5).take (b.length - 11)

/-- The text `[\x7b"log_level":"INFO"\x7d]` of a JSON array with one log record. -/
def sampleText : Str := "[\x7b\x22log_level\x22:\x22INFO\x22\x7d]".toList

/-- The value of `sampleText`. -/
def sampleValue : Json := .arr [.obj [("log_level".toList, .str "INFO".toList)]]

/-- A stand-in for the library's stream extraction `iss >> j` in examples. The extraction is
not strict: it reads the first JSON value of the text and leaves what follows unread. Here a
text that begins with `sampleText` gives `sampleValue`, and every other text is a parse
error. -/
def extractSample (body : Str) : Option Json :=
  if startsWith sampleText body then some sampleValue else none

/-- A stand-in for `dump()` in examples: `[]` for the empty array and `sampleText`, the dump
of `sampleValue`, otherwise. -/
def dumpSample : Json → Str
  | .arr [] => "[]".toList
  | _ => sampleText

/-! ## Theorems -/

/-- C1 (defect of the code). The line `2024-01-01 10:00:00 | INFO | msg | UserID: | IP: 1.2.3.4`
splits into five parts and its user value is the empty string, but the final trim of the key
calls `substr(npos, 1)` on it, which throws: `TXTParser::parse` grouped by user returns no
table, so the line is not counted under the empty key. -/
theorem txt_parse_empty_user_raises :
    splitParts "2024-01-01 10:00:00 | INFO | msg | UserID: | IP: 1.2.3.4".toList
        = some ["2024-01-01 10:00:00".toList, "INFO".toList, "msg".toList, "UserID:".toList,
            "IP: 1.2.3.4".toList]
      ∧ extractValue "UserID:".toList = some []
      ∧ trimKey [] = none
      ∧ TXTParser.parse "2024-01-01 10:00:00 | INFO | msg | UserID: | IP: 1.2.3.4".toList
          .BY_USER = none := by
  decide

/-- C2 (defect of the code). For the array of `\x7b"log_level":"INFO"\x7d` and
`\x7b"ip_address":"1.2.3.4","log_level":"WARN"\x7d` grouped by IP, the first element has no
`ip_address`: `entry["ip_address"]` on the `const` element fails and `JSONParser::parse`
returns no table, instead of skipping the element and counting the second one. An empty
string `ip_address` is skipped, and an empty string `user_id` makes `get<int>()` throw. -/
theorem json_parse_absent_field_raises :
    jsonKey .BY_IP (.obj [("log_level".toList, .str "INFO".toList)]) = none
      ∧ JSONParser.parse
          (fun _ => some (.arr [.obj [("log_level".toList, .str "INFO".toList)],
            .obj [("ip_address".toList, .str "1.2.3.4".toList),
              ("log_level".toList, .str "WARN".toList)]])) [] .BY_IP = none
      ∧ JSONParser.parse
          (fun _ => some (.arr [.obj [("ip_address".toList, .str [])],
            .obj [("ip_address".toList, .str "1.2.3.4".toList)]])) [] .BY_IP
          = some [("1.2.3.4".toList, 1)]
      ∧ JSONParser.parse (fun _ => some (.arr [.obj [("user_id".toList, .str [])]])) []
          .BY_USER = none := by
  decide

theorem detect_firstOutside (set body : Str) :
    firstOutside set body = (find_first_not_of set body).map fun p => body.getD p ' ' := by
  induction body with
  | nil => rfl
  | cons c cs ih =>
    unfold firstOutside at ih ⊢
    cases h : set.contains c with
    | true =>
      simp only [List.find?, find_first_not_of, h, Bool.not_true, if_true, ih, Option.map_map]
      congr 1
    | false =>
      simp only [List.find?, find_first_not_of, h, Bool.not_false, Bool.false_eq_true,
        if_false, Option.map_some']
      rfl

/-- C3 (the claim as stated fails). On the body `"\r["` the first character that is not a
space, tab or newline is the carriage return, which is none of `[`, `\x7b`, `<`, yet
`detectFileType` returns JSON. -/
theorem detectFileType_skips_carriage_return :
    firstOutside " \t\n".toList "\r[".toList = some '\r'
      ∧ detectFileType "\r[".toList = .JSON
      ∧ ¬ (detectFileType "\r[".toList = .JSON ↔
            (firstOutside " \t\n".toList "\r[".toList = some '['
              ∨ firstOutside " \t\n".toList "\r[".toList = some '\x7b')) := by
  decide

/-- C3 (amended). With `c` the first character of the body that is not a space, tab,
carriage return or newline: `detectFileType` returns JSON iff `c` is `[` or `\x7b`, XML iff
`c` is `<`, and TXT in every other case, including when there is no such character. -/
theorem detectFileType_spec (body : Str) :
    (detectFileType body = .JSON ↔
        (firstOutside " \t\r\n".toList body = some '['
          ∨ firstOutside " \t\r\n".toList body = some '\x7b'))
      ∧ (detectFileType body = .XML ↔ firstOutside " \t\r\n".toList body = some '<')
      ∧ (detectFileType body = .TXT ↔
          (firstOutside " \t\r\n".toList body ≠ some '['
            ∧ firstOutside " \t\r\n".toList body ≠ some '\x7b'
            ∧ firstOutside " \t\r\n".toList body ≠ some '<')) := by
  rw [detect_firstOutside]
  unfold detectFileType
  cases h : find_first_not_of " \t\r\n".toList body with
  | none => simp
  | some p =>
    simp only [Option.map_some']
    generalize body.getD p ' ' = c
    by_cases h1 : c = '['
    · subst h1; simp
    · by_cases h2 : c = '\x7b'
      · subst h2; simp
      · by_cases h3 : c = '<'
        · subst h3; simp
        · simp [h1, h2, h3]

theorem char_eq_of_toNat (a b : Char) (h1 : ¬ a.toNat < b.toNat) (h2 : ¬ b.toNat < a.toNat) :
    a = b := by
  apply Char.ext
  apply UInt32.ext
  have : a.toNat = b.toNat := by omega
  exact this

/-- The comparison `strLt` is the lexicographic order on byte values. -/
theorem strLt_iff_lex (a b : Str) :
    strLt a b = true ↔ List.Lex (fun x y : Char => x.toNat < y.toNat) a b := by
  induction a generalizing b with
  | nil =>
    cases b with
    | nil => simp only [strLt, Bool.false_eq_true, false_iff]; intro h; cases h
    | cons b bs => simp only [strLt, true_iff]; exact List.Lex.nil
  | cons a as ih =>
    cases b with
    | nil => simp only [strLt, Bool.false_eq_true, false_iff]; intro h; cases h
    | cons b bs =>
      unfold strLt
      by_cases h1 : a.toNat < b.toNat
      · simp only [h1, if_true, true_iff]
        exact List.Lex.rel h1
      · by_cases h2 : b.toNat < a.toNat
        · simp only [h1, h2, if_false, if_true, Bool.false_eq_true, false_iff]
          intro h
          cases h with
          | rel h => exact h1 h
          | cons _ => omega
        · simp only [h1, h2, if_false, ih]
          have hab := char_eq_of_toNat a b h1 h2
          subst hab
          constructor
          · intro h
            exact List.Lex.cons h
          · intro h
            cases h with
            | rel h => exact absurd h h1
            | cons h => exact h

theorem substr_zero (s : Str) (n : Nat) : substr s 0 n = some (s.take n) := by
  simp [substr]

theorem filterJsonStep_eq (fromDate toDate : Str) (filtered : List Json) (entry : Json)
    (h : isLogObject entry = true) :
    filterJsonStep fromDate toDate filtered entry
      = some (if jsonRetained fromDate toDate entry then filtered ++ [entry] else filtered) := by
  cases entry with
  | obj members =>
    unfold isLogObject at h
    unfold filterJsonStep Json.valueString jsonRetained
    dsimp only at h ⊢
    generalize members.lookup "timestamp".toList = r at h ⊢
    cases r with
    | none => simp
    | some v =>
      cases v with
      | str ts =>
        simp only [Json.getString, Option.bind_eq_bind, Option.some_bind, substr_zero]
        by_cases hlen : 10 ≤ ts.length
        · have hlt : ¬ ts.length < 10 := by omega
          simp only [hlen, if_true, hlt, decide_False, Bool.false_or, outOfRange, strLe]
          rcases Bool.eq_false_or_eq_true fromDate.isEmpty with h1 | h1 <;>
            rcases Bool.eq_false_or_eq_true toDate.isEmpty with h2 | h2 <;>
            rcases Bool.eq_false_or_eq_true (strLt (List.take 10 ts) fromDate) with h3 | h3 <;>
            rcases Bool.eq_false_or_eq_true (strLt toDate (List.take 10 ts)) with h4 | h4 <;>
            simp [h1, h2, h3, h4]
        · have hlt : ts.length < 10 := by omega
          simp [hlen, hlt]
      | null => simp at h
      | bool b => simp at h
      | num n => simp at h
      | arr l => simp at h
      | obj l => simp at h
  | null => simp [isLogObject] at h
  | bool b => simp [isLogObject] at h
  | num n => simp [isLogObject] at h
  | str s => simp [isLogObject] at h
  | arr l => simp [isLogObject] at h

theorem filterJson_fold (fromDate toDate : Str) (elems : List Json)
    (h : elems.all isLogObject = true) (filtered : List Json) :
    elems.foldlM (filterJsonStep fromDate toDate) filtered
      = some (filtered ++ elems.filter (jsonRetained fromDate toDate)) := by
  induction elems generalizing filtered with
  | nil => simp
  | cons e es ih =>
    simp only [List.all_cons, Bool.and_eq_true] at h
    rw [List.foldlM_cons, filterJsonStep_eq _ _ _ _ h.1]
    simp only [Option.bind_eq_bind, Option.some_bind]
    rw [ih h.2]
    cases hr : jsonRetained fromDate toDate e <;> simp [List.filter, hr]

/-- C4. When the body parses to an array of objects whose `timestamp`, when present, is a
string, `filterJsonByDate` returns the dump of the array of exactly the retained elements in
their original order: those with no `timestamp` or one shorter than 10 characters, and those
whose date `d` satisfies (`fromDate` empty or `d >= fromDate`) and (`toDate` empty or
`d <= toDate`). With the bounds 2024-01-01 and 2024-01-31, the timestamps
`2024-02-01T00:00:00` and `2023-12-31T23:59:59` are excluded, `2024-01-15T08:30:00` is
included, and an element without `timestamp` is retained whatever the bounds. -/
theorem filterJsonByDate_spec (parseJson : Str → Option Json) (dump : Json → Str)
    (jsonBody fromDate toDate : Str) (elems : List Json)
    (hparse : parseJson jsonBody = some (.arr elems))
    (helems : elems.all isLogObject = true) :
    filterJsonByDate parseJson dump jsonBody fromDate toDate
        = some (dump (.arr (elems.filter (jsonRetained fromDate toDate))))
      ∧ jsonRetained "2024-01-01".toList "2024-01-31".toList
          (stamped "2024-02-01T00:00:00".toList) = false
      ∧ jsonRetained "2024-01-01".toList "2024-01-31".toList
          (stamped "2023-12-31T23:59:59".toList) = false
      ∧ jsonRetained "2024-01-01".toList "2024-01-31".toList
          (stamped "2024-01-15T08:30:00".toList) = true
      ∧ jsonRetained fromDate toDate unstamped = true := by
  refine ⟨?_, by decide, by decide, by decide, rfl⟩
  unfold filterJsonByDate
  rw [hparse]
  simp only [Json.items, filterJson_fold _ _ _ helems, Option.bind_eq_bind, Option.some_bind,
    List.nil_append]

theorem filterJsonByDate_spec_witness :
    filterJsonByDate
        (fun _ => some (.arr [stamped "2024-02-01T00:00:00".toList,
          stamped "2023-12-31T23:59:59".toList, stamped "2024-01-15T08:30:00".toList,
          stamped "2024".toList, unstamped]))
        dumpCount [] "2024-01-01".toList "2024-01-31".toList
      = some "3".toList :=
  (filterJsonByDate_spec
    (fun _ => some (.arr [stamped "2024-02-01T00:00:00".toList,
      stamped "2023-12-31T23:59:59".toList, stamped "2024-01-15T08:30:00".toList,
      stamped "2024".toList, unstamped]))
    dumpCount [] "2024-01-01".toList "2024-01-31".toList _ rfl (by decide)).1

theorem getlines_splitOn (d : Char) (s : Str) :
    s.splitOn d = getlines d s ∨ s.splitOn d = getlines d s ++ [[]] := by
  induction s with
  | nil => right; rfl
  | cons c cs ih =>
    unfold List.splitOn at ih ⊢
    rw [List.splitOnP_cons]
    by_cases hc : c = d
    · subst hc
      simp only [beq_self_eq_true, if_true, getlines]
      rcases ih with ih | ih
      · left; rw [ih]
      · right; rw [ih]; rfl
    · have hb : (c == d) = false := by simpa using hc
      simp only [hb, Bool.false_eq_true, if_false, getlines, hc]
      rcases ih with ih | ih
      · left
        rw [ih]
        cases hg : getlines d cs with
        | nil => rw [hg] at ih; exact absurd ih (List.splitOnP_ne_nil _ _)
        | cons l ls => rfl
      · rw [ih]
        cases hg : getlines d cs with
        | nil => left; rfl
        | cons l ls => right; rfl

theorem getlines_filter_splitOn (d : Char) (s : Str) (p : Str → Bool) (hp : p [] = false) :
    (getlines d s).filter p = (s.splitOn d).filter p := by
  rcases getlines_splitOn d s with h | h
  · rw [h]
  · rw [h, List.filter_append]
    simp [List.filter, hp]

theorem getlines_not_mem (d : Char) (s : Str) : ∀ l ∈ getlines d s, d ∉ l := by
  induction s with
  | nil => intro l hl; simp [getlines] at hl
  | cons c cs ih =>
    intro l hl
    unfold getlines at hl
    by_cases hc : c = d
    · simp only [hc, if_true, List.mem_cons] at hl
      rcases hl with rfl | hl
      · simp
      · exact ih l hl
    · simp only [hc, if_false] at hl
      cases hg : getlines d cs with
      | nil =>
        rw [hg] at hl
        simp only [List.mem_singleton] at hl
        subst hl
        simpa using fun h => hc h.symm
      | cons l1 ls =>
        rw [hg] at hl ih
        simp only [List.mem_cons] at hl
        rcases hl with rfl | hl
        · have := ih l1 (List.mem_cons_self _ _)
          simp only [List.mem_cons, not_or]
          exact ⟨fun h => hc h.symm, this⟩
        · exact ih l (List.mem_cons_of_mem _ hl)

theorem getlines_line_append (d : Char) (l rest : Str) (hl : d ∉ l) :
    getlines d (l ++ d :: rest) = l :: getlines d rest := by
  induction l with
  | nil => simp [getlines]
  | cons c cs ih =>
    simp only [List.mem_cons, not_or] at hl
    have hc : c ≠ d := fun h => hl.1 h.symm
    have e := ih hl.2
    rw [List.cons_append, getlines, if_neg hc, e]

theorem getlines_flatMap (d : Char) (ls : List Str) (h : ∀ l ∈ ls, d ∉ l) :
    getlines d (ls.flatMap fun l => l ++ [d]) = ls := by
  induction ls with
  | nil => rfl
  | cons l ls ih =>
    simp only [List.flatMap_cons, List.append_assoc, List.singleton_append]
    rw [getlines_line_append d l _ (h l (List.mem_cons_self _ _))]
    rw [ih fun l1 h1 => h l1 (List.mem_cons_of_mem _ h1)]

theorem filterTxtStep_eq (fromDate toDate oss line : Str) :
    filterTxtStep fromDate toDate oss line
      = oss ++ (if txtRetained fromDate toDate line then line ++ ['\n'] else []) := by
  unfold filterTxtStep txtRetained outOfRange strLe
  by_cases hlen : line.length < 10
  · have : ¬ 10 ≤ line.length := by omega
    simp [hlen, this]
  · have h10 : 10 ≤ line.length := by omega
    simp only [hlen, if_false, h10, decide_True, Bool.true_and]
    rcases Bool.eq_false_or_eq_true fromDate.isEmpty with h1 | h1 <;>
      rcases Bool.eq_false_or_eq_true toDate.isEmpty with h2 | h2 <;>
      rcases Bool.eq_false_or_eq_true (strLt (List.take 10 line) fromDate) with h3 | h3 <;>
      rcases Bool.eq_false_or_eq_true (strLt toDate (List.take 10 line)) with h4 | h4 <;>
      simp [h1, h2, h3, h4]

theorem filterTxt_fold (fromDate toDate : Str) (ls : List Str) (oss : Str) :
    ls.foldl (filterTxtStep fromDate toDate) oss
      = oss ++ (ls.filter (txtRetained fromDate toDate)).flatMap fun l => l ++ ['\n'] := by
  induction ls generalizing oss with
  | nil => simp
  | cons l ls ih =>
    rw [List.foldl_cons, ih, filterTxtStep_eq]
    cases hr : txtRetained fromDate toDate l <;> simp [List.filter, hr]

theorem filterTxt_getlines (body fromDate toDate : Str) :
    filterTxtByDate body fromDate toDate
      = ((getlines '\n' body).filter (txtRetained fromDate toDate)).flatMap
          fun l => l ++ ['\n'] := by
  unfold filterTxtByDate
  rw [filterTxt_fold, List.nil_append]

/-- C8. The function `filterTxtByDate` is idempotent: filtering its own output with the same
bounds gives that output again. -/
theorem filterTxtByDate_idempotent (body fromDate toDate : Str) :
    filterTxtByDate (filterTxtByDate body fromDate toDate) fromDate toDate
      = filterTxtByDate body fromDate toDate := by
  rw [filterTxt_getlines (filterTxtByDate body fromDate toDate), filterTxt_getlines body]
  rw [getlines_flatMap]
  · rw [List.filter_filter]
    simp
  · intro l hl
    exact getlines_not_mem '\n' body l (List.mem_of_mem_filter hl)

theorem startsWith_iff (n s : Str) : startsWith n s = true ↔ n <+: s := by
  unfold startsWith
  exact List.isPrefixOf_iff_prefix

theorem find_some_iff (n s : Str) (i : Nat) :
    find n s = some i ↔ n <+: s.drop i ∧ i ≤ s.length ∧ ∀ j, j < i → ¬ n <+: s.drop j := by
  induction s generalizing i with
  | nil =>
    unfold find
    constructor
    · intro h
      by_cases hn : n.isEmpty = true
      · simp only [hn, if_true, Option.some.injEq] at h
        subst h
        have : n = [] := by simpa using hn
        subst this
        simp
      · simp [hn] at h
    · rintro ⟨h1, h2, _⟩
      have hi : i = 0 := by simpa using h2
      subst hi
      have : n = [] := by simpa using h1
      subst this
      simp
  | cons c cs ih =>
    unfold find
    by_cases hs : startsWith n (c :: cs) = true
    · simp only [hs, if_true, Option.some.injEq]
      constructor
      · intro h
        subst h
        exact ⟨(startsWith_iff _ _).1 hs, Nat.zero_le _, fun j hj => absurd hj (Nat.not_lt_zero _)⟩
      · rintro ⟨_, _, h3⟩
        by_contra hne
        have hpos : 0 < i := by omega
        exact h3 0 hpos ((startsWith_iff _ _).1 hs)
    · simp only [hs, Bool.false_eq_true, if_false]
      have hs' : ¬ n <+: c :: cs := fun h => hs ((startsWith_iff _ _).2 h)
      constructor
      · intro h
        cases hf : find n cs with
        | none => rw [hf] at h; simp at h
        | some k =>
          rw [hf] at h
          simp only [Option.map_some', Option.some.injEq] at h
          subst h
          obtain ⟨h1, h2, h3⟩ := (ih k).1 hf
          refine ⟨by simpa using h1, by simpa using h2, ?_⟩
          intro j hj
          cases j with
          | zero => simpa using hs'
          | succ j => simpa using h3 j (by omega)
      · rintro ⟨h1, h2, h3⟩
        cases i with
        | zero => exact absurd (by simpa using h1) hs'
        | succ k =>
          have : find n cs = some k := by
            apply (ih k).2
            refine ⟨by simpa using h1, by simpa using h2, ?_⟩
            intro j hj
            simpa using h3 (j + 1) (by omega)
          rw [this]
          rfl

theorem find_none_iff (n s : Str) :
    find n s = none ↔ ∀ j, j ≤ s.length → ¬ n <+: s.drop j := by
  induction s with
  | nil =>
    unfold find
    by_cases hn : n.isEmpty = true
    · have : n = [] := by simpa using hn
      subst this
      simp
    · have hne : n ≠ [] := by simpa using hn
      simp only [hn, Bool.false_eq_true, if_false, true_iff]
      intro j _ h
      apply hne
      simpa using h
  | cons c cs ih =>
    unfold find
    by_cases hs : startsWith n (c :: cs) = true
    · simp only [hs, if_true]
      constructor
      · intro h; cases h
      · intro h
        exact absurd (by simpa using (startsWith_iff _ _).1 hs) (h 0 (Nat.zero_le _))
    · have hs' : ¬ n <+: c :: cs := fun h => hs ((startsWith_iff _ _).2 h)
      simp only [hs, Bool.false_eq_true, if_false, Option.map_eq_none', ih]
      constructor
      · intro h j hj
        cases j with
        | zero => simpa using hs'
        | succ j => simpa using h j (by simpa using hj)
      · intro h j hj
        simpa using h (j + 1) (by simpa using hj)

theorem infix_iff_drop (n s : Str) : n <:+: s ↔ ∃ j, j ≤ s.length ∧ n <+: s.drop j := by
  constructor
  · rintro ⟨a, b, rfl⟩
    refine ⟨a.length, by simp, ?_⟩
    simp [List.append_assoc]
  · rintro ⟨j, hj, b, hb⟩
    refine ⟨s.take j, b, ?_⟩
    rw [List.append_assoc, hb, List.take_append_drop]

theorem find_isSome_of_infix (n s : Str) (h : n <:+: s) : ∃ i, find n s = some i := by
  cases hf : find n s with
  | some i => exact ⟨i, rfl⟩
  | none =>
    obtain ⟨j, hj, hp⟩ := (infix_iff_drop n s).1 h
    exact absurd hp ((find_none_iff n s).1 hf j hj)

/-- C9. When the received bytes `r` contain `"\n\n"`, with `i` the offset of its first
occurrence, the framer takes the header `r[0..i)` and the body `r[i+2..end)`; hence
header ++ `"\n\n"` ++ body is `r`, and the header contains no `"\n\n"`. -/
theorem splitHeaderBody_spec (r : Str) (h : "\n\n".toList <:+: r) :
    ∃ i, find "\n\n".toList r = some i
      ∧ "\n\n".toList <+: r.drop i
      ∧ (∀ j, j < i → ¬ "\n\n".toList <+: r.drop j)
      ∧ splitHeaderBody r = .framed (r.take i) (r.drop (i + 2))
      ∧ r.take i ++ "\n\n".toList ++ r.drop (i + 2) = r
      ∧ ¬ "\n\n".toList <:+: r.take i := by
  obtain ⟨i, hi⟩ := find_isSome_of_infix _ _ h
  obtain ⟨h1, h2, h3⟩ := (find_some_iff _ _ _).1 hi
  have hlen : i + 2 ≤ r.length := by
    have := h1.length_le
    simp only [List.length_drop] at this
    have h2' : ("\n\n".toList).length = 2 := rfl
    omega
  have hdrop : r.drop i = "\n\n".toList ++ r.drop (i + 2) := by
    obtain ⟨b, hb⟩ := h1
    have : r.drop (i + 2) = b := by
      rw [← List.drop_drop, ← hb]
      rfl
    rw [this, hb]
  refine ⟨i, hi, h1, h3, ?_, ?_, ?_⟩
  · unfold splitHeaderBody
    have hne : r.isEmpty = false := by
      cases r with
      | nil => simp at hlen
      | cons c cs => rfl
    have hn1 : ¬ r.length < i + 2 := by omega
    simp only [hne, Bool.false_eq_true, if_false, hi, substr, substrFrom, hn1,
      Nat.not_lt_zero, List.drop_zero]
  · rw [List.append_assoc, ← hdrop, List.take_append_drop]
  · intro hin
    obtain ⟨j, hj, hp⟩ := (infix_iff_drop _ _).1 hin
    have hjl : j + 2 ≤ i := by
      have := hp.length_le
      simp only [List.length_drop, List.length_take] at this
      have h2' : ("\n\n".toList).length = 2 := rfl
      omega
    apply h3 j (by omega)
    refine hp.trans ?_
    rw [List.drop_take]
    exact List.take_prefix _ _

theorem splitHeaderBody_spec_witness :
    "\n\n".toList <:+: "TYPE:IP\nTO:2024-01-31\n\na\n\nb".toList
      ∧ ∃ i, find "\n\n".toList "TYPE:IP\nTO:2024-01-31\n\na\n\nb".toList = some i
        ∧ "\n\n".toList <+: ("TYPE:IP\nTO:2024-01-31\n\na\n\nb".toList).drop i
        ∧ (∀ j, j < i → ¬ "\n\n".toList <+: ("TYPE:IP\nTO:2024-01-31\n\na\n\nb".toList).drop j)
        ∧ splitHeaderBody "TYPE:IP\nTO:2024-01-31\n\na\n\nb".toList
            = .framed (("TYPE:IP\nTO:2024-01-31\n\na\n\nb".toList).take i)
                (("TYPE:IP\nTO:2024-01-31\n\na\n\nb".toList).drop (i + 2))
        ∧ ("TYPE:IP\nTO:2024-01-31\n\na\n\nb".toList).take i ++ "\n\n".toList
            ++ ("TYPE:IP\nTO:2024-01-31\n\na\n\nb".toList).drop (i + 2)
            = "TYPE:IP\nTO:2024-01-31\n\na\n\nb".toList
        ∧ ¬ "\n\n".toList <:+: ("TYPE:IP\nTO:2024-01-31\n\na\n\nb".toList).take i :=
  ⟨⟨"TYPE:IP\nTO:2024-01-31".toList, "a\n\nb".toList, rfl⟩,
    splitHeaderBody_spec _ ⟨"TYPE:IP\nTO:2024-01-31".toList, "a\n\nb".toList, rfl⟩⟩

/-- C10. When the received bytes contain no `"\n\n"` (the empty payload included),
`handleClient` only writes its error line and closes the socket: nothing is sent, and neither
the detector nor a filter nor a parser is run. -/
theorem handleClient_no_separator (parseJson : Str → Option Json) (dump : Json → Str)
    (r : Str) (h : ¬ "\n\n".toList <:+: r) :
    (r = [] → handleClient parseJson dump r
        = [.error "[ERROR] Empty payload\n".toList, .close])
      ∧ (r ≠ [] → handleClient parseJson dump r
          = [.error "[ERROR] Invalid payload (no header/body separator)\n".toList, .close])
      ∧ ∀ e ∈ handleClient parseJson dump r,
          (∀ bytes, e ≠ .send bytes) ∧ (∀ body, e ≠ .detect body)
            ∧ (∀ ft body, e ≠ .filter ft body) ∧ (∀ ft text, e ≠ .parse ft text) := by
  have hnone : find "\n\n".toList r = none := by
    rw [find_none_iff]
    intro j hj hp
    exact h ((infix_iff_drop _ _).2 ⟨j, hj, hp⟩)
  have h1 : r = [] → handleClient parseJson dump r
      = [.error "[ERROR] Empty payload\n".toList, .close] := by
    intro hr
    subst hr
    rfl
  have h2 : r ≠ [] → handleClient parseJson dump r
      = [.error "[ERROR] Invalid payload (no header/body separator)\n".toList, .close] := by
    intro hr
    have hne : r.isEmpty = false := by
      cases r with
      | nil => exact absurd rfl hr
      | cons c cs => rfl
    unfold handleClient splitHeaderBody
    simp only [hne, Bool.false_eq_true, if_false, hnone]
  refine ⟨h1, h2, ?_⟩
  intro e he
  by_cases hr : r = []
  · rw [h1 hr] at he
    simp only [List.mem_cons, List.mem_singleton, List.not_mem_nil, or_false] at he
    rcases he with rfl | rfl <;> simp
  · rw [h2 hr] at he
    simp only [List.mem_cons, List.mem_singleton, List.not_mem_nil, or_false] at he
    rcases he with rfl | rfl <;> simp

theorem handleClient_no_separator_witness :
    ¬ "\n\n".toList <:+: "TYPE:USER\n2024-01-01 | INFO".toList
      ∧ handleClient (fun _ => none) dumpCount "TYPE:USER\n2024-01-01 | INFO".toList
          = [.error "[ERROR] Invalid payload (no header/body separator)\n".toList, .close] :=
  ⟨by decide,
    (handleClient_no_separator (fun _ => none) dumpCount
      "TYPE:USER\n2024-01-01 | INFO".toList (by decide)).2.1 (by decide)⟩

theorem findFrom_some (n s : Str) (pos k : Nat) (h : findFrom n s pos = some k) :
    pos ≤ k ∧ k ≤ s.length ∧ n <+: s.drop k
      ∧ ∀ j, pos ≤ j → j < k → ¬ n <+: s.drop j := by
  unfold findFrom at h
  by_cases hp : s.length < pos
  · simp [hp] at h
  · simp only [hp, if_false] at h
    cases hf : find n (s.drop pos) with
    | none => rw [hf] at h; simp at h
    | some i =>
      rw [hf] at h
      simp only [Option.map_some', Option.some.injEq] at h
      subst h
      obtain ⟨h1, h2, h3⟩ := (find_some_iff _ _ _).1 hf
      simp only [List.drop_drop, List.length_drop] at h1 h2 h3
      refine ⟨by omega, by omega, by rwa [Nat.add_comm], ?_⟩
      intro j hj1 hj2
      have := h3 (j - pos) (by omega)
      rwa [show pos + (j - pos) = j by omega] at this

theorem findFrom_some_intro (n s : Str) (pos k : Nat) (h1 : pos ≤ k) (h2 : k ≤ s.length)
    (h3 : n <+: s.drop k) (h4 : ∀ j, pos ≤ j → j < k → ¬ n <+: s.drop j) :
    findFrom n s pos = some k := by
  unfold findFrom
  have hp : ¬ s.length < pos := by omega
  simp only [hp, if_false]
  have : find n (s.drop pos) = some (k - pos) := by
    rw [find_some_iff]
    simp only [List.drop_drop, List.length_drop]
    refine ⟨by rwa [show pos + (k - pos) = k by omega], by omega, ?_⟩
    intro j hj
    exact h4 (pos + j) (by omega) (by omega)
  rw [this]
  simp only [Option.map_some', Option.some.injEq]
  omega

theorem findFrom_none_intro (n s : Str) (pos : Nat)
    (h : ∀ j, pos ≤ j → j ≤ s.length → ¬ n <+: s.drop j) :
    findFrom n s pos = none := by
  unfold findFrom
  by_cases hp : s.length < pos
  · simp [hp]
  · simp only [hp, if_false, Option.map_eq_none']
    rw [find_none_iff]
    intro j hj
    simp only [List.drop_drop, List.length_drop] at hj ⊢
    exact h (pos + j) (by omega) (by omega)

theorem sizeSub_of_le (a b : Nat) (h : b ≤ a) : sizeSub a b = a - b := by
  simp [sizeSub, h]

theorem substr_of_le (s : Str) (pos len : Nat) (h : pos ≤ s.length) :
    substr s pos len = some ((s.drop pos).take len) := by
  have : ¬ s.length < pos := by omega
  simp [substr, this]

theorem getTagValue_isSome (s tag : Str) : ∃ v, getTagValue s tag = some v := by
  unfold getTagValue
  simp only
  cases h1 : find ("<".toList ++ tag ++ ">".toList) s with
  | none => exact ⟨_, rfl⟩
  | some p1 =>
    simp only
    cases h2 : findFrom ("</".toList ++ tag ++ ">".toList) s
        (p1 + ("<".toList ++ tag ++ ">".toList).length) with
    | none => exact ⟨_, rfl⟩
    | some p2 =>
      obtain ⟨ha, hb, _, _⟩ := findFrom_some _ _ _ _ h2
      simp only
      rw [substr_of_le _ _ _ (by omega)]
      exact ⟨_, rfl⟩

theorem xmlDate_isSome (b : Str) : ∃ d, xmlDate b = some d := by
  unfold xmlDate
  obtain ⟨ts, hts⟩ := getTagValue_isSome b "timestamp".toList
  rw [hts]
  simp only [Option.bind_eq_bind, Option.some_bind, substr_zero]
  by_cases h : 10 ≤ ts.length
  · simp [h]
  · simp [h]

theorem xmlDate_getD (b : Str) : xmlDate b = some ((xmlDate b).getD []) := by
  obtain ⟨d, hd⟩ := xmlDate_isSome b
  rw [hd]
  rfl

/-- Both searches of one scan step: the positions they return and the block between them. -/
theorem span_facts (s : Str) (pos start stop : Nat)
    (h1 : findFrom "<log>".toList s pos = some start)
    (h2 : findFrom "</log>".toList s start = some stop) :
    pos ≤ start ∧ start ≤ stop ∧ stop + 6 ≤ s.length
      ∧ substr s start (sizeSub (stop + 6) start) = some (blockAt s (start, stop))
      ∧ IsBlock (blockAt s (start, stop)) := by
  obtain ⟨a1, a2, a3, a4⟩ := findFrom_some _ _ _ _ h1
  obtain ⟨b1, b2, b3, b4⟩ := findFrom_some _ _ _ _ h2
  have hlen : stop + 6 ≤ s.length := by
    have := b3.length_le
    simp only [List.length_drop] at this
    have h6 : ("</log>".toList).length = 6 := rfl
    omega
  have hblen : (blockAt s (start, stop)).length = stop + 6 - start := by
    simp only [blockAt, List.length_take, List.length_drop]
    omega
  refine ⟨a1, b1, hlen, ?_, ?_, ?_, ?_, ?_⟩
  · rw [sizeSub_of_le _ _ (by omega), substr_of_le _ _ _ (by omega)]
    rfl
  · unfold blockAt
    rw [List.prefix_take_iff]
    refine ⟨a3, ?_⟩
    have h5 : ("<log>".toList).length = 5 := rfl
    simp only [h5]
    omega
  · omega
  · rw [hblen]
    unfold blockAt
    simp only
    rw [List.drop_take, List.drop_drop, List.prefix_take_iff]
    rw [show start + (stop + 6 - start - 6) = stop by omega]
    refine ⟨b3, ?_⟩
    have h6 : ("</log>".toList).length = 6 := rfl
    simp only [h6]
    omega
  · intro j hj hp
    rw [hblen] at hj
    unfold blockAt at hp
    simp only at hp
    rw [List.drop_take, List.drop_drop, List.prefix_take_iff] at hp
    exact b4 (start + j) (by omega) (by omega) hp.1

theorem filterXmlLoop_eq (fromDate toDate s : Str) :
    ∀ fuel pos acc, pos ≤ s.length → s.length < fuel + pos →
      filterXmlLoop fromDate toDate s fuel pos acc
        = some (acc ++ (((xmlSpans s fuel pos).map (blockAt s)).filter
            (blockKept fromDate toDate)).flatten) := by
  intro fuel
  induction fuel with
  | zero => intro pos acc h1 h2; omega
  | succ fuel ih =>
    intro pos acc h1 h2
    unfold filterXmlLoop xmlSpans
    cases hs : findFrom "<log>".toList s pos with
    | none => simp
    | some start =>
      simp only
      cases he : findFrom "</log>".toList s start with
      | none => simp
      | some stop =>
        obtain ⟨a1, a2, a3, a4, _⟩ := span_facts s pos start stop hs he
        simp only [a4, Option.bind_eq_bind, Option.some_bind]
        rw [xmlDate_getD (blockAt s (start, stop))]
        simp only [Option.some_bind]
        rw [ih (stop + 6) _ a3 (by omega)]
        simp only [List.map_cons, List.filter_cons, blockKept]
        rcases Bool.eq_false_or_eq_true
          (xmlKeep fromDate toDate ((xmlDate (blockAt s (start, stop))).getD [])) with hk | hk <;>
          simp [hk]

theorem xmlSpans_isBlock (s : Str) :
    ∀ fuel pos, ∀ b ∈ (xmlSpans s fuel pos).map (blockAt s), IsBlock b := by
  intro fuel
  induction fuel with
  | zero => intro pos b hb; simp [xmlSpans] at hb
  | succ fuel ih =>
    intro pos b hb
    unfold xmlSpans at hb
    cases hs : findFrom "<log>".toList s pos with
    | none => rw [hs] at hb; simp at hb
    | some start =>
      rw [hs] at hb
      simp only at hb
      cases he : findFrom "</log>".toList s start with
      | none => rw [he] at hb; simp at hb
      | some stop =>
        rw [he] at hb
        simp only [List.map_cons, List.mem_cons] at hb
        rcases hb with rfl | hb
        · exact (span_facts s pos start stop hs he).2.2.2.2
        · exact ih _ b hb

theorem filterXmlByDate_eq (xmlBody fromDate toDate : Str) :
    filterXmlByDate xmlBody fromDate toDate
      = some ("<logs>".toList ++ ((xmlBlocks xmlBody).filter (blockKept fromDate toDate)).flatten
          ++ "</logs>".toList) := by
  unfold filterXmlByDate xmlBlocks
  rw [filterXmlLoop_eq _ _ _ _ _ _ (Nat.zero_le _) (by omega)]
  rfl

theorem prefix_drop_append (n b rest : Str) (j : Nat) (hj : j + n.length ≤ b.length) :
    n <+: (b ++ rest).drop j ↔ n <+: b.drop j := by
  rw [List.drop_append_of_le_length (by omega)]
  constructor
  · intro h
    refine List.prefix_of_prefix_length_le h (List.prefix_append _ _) ?_
    simp only [List.length_drop]
    omega
  · intro h
    exact h.trans (List.prefix_append _ _)

theorem find_log_after_logs (x : Str) :
    find "<log>".toList ("<logs>".toList ++ x) = (find "<log>".toList x).map (· + 6) := by
  have e : "<logs>".toList ++ x = '<' :: 'l' :: 'o' :: 'g' :: 's' :: '>' :: x := rfl
  have n : "<log>".toList = ['<', 'l', 'o', 'g', '>'] := rfl
  rw [e, n]
  simp only [find, startsWith, List.isPrefixOf, Option.map_map]
  simp

theorem xmlSpans_concat (tail : Str) (htail : find "<log>".toList tail = none)
    (ks : List Str) (hks : ∀ b ∈ ks, IsBlock b) :
    ∀ (pre : Str) (fuel : Nat), ks.flatten.length + tail.length < fuel →
      (xmlSpans (pre ++ (ks.flatten ++ tail)) fuel pre.length).map
          (blockAt (pre ++ (ks.flatten ++ tail))) = ks := by
  induction ks with
  | nil =>
    intro pre fuel hf
    cases fuel with
    | zero => omega
    | succ fuel =>
      unfold xmlSpans
      have : findFrom "<log>".toList (pre ++ (([] : List Str).flatten ++ tail)) pre.length
          = none := by
        apply findFrom_none_intro
        intro j hj1 hj2 hp
        simp only [List.flatten_nil, List.nil_append, List.length_append] at hj2 hp
        rw [show j = pre.length + (j - pre.length) by omega, List.drop_append] at hp
        exact (find_none_iff _ _).1 htail (j - pre.length) (by omega) hp
      rw [this]
      rfl
  | cons b ks ih =>
    intro pre fuel hf
    obtain ⟨hb1, hb2, hb3, hb4⟩ := hks b (List.mem_cons_self _ _)
    have h5 : ("<log>".toList).length = 5 := rfl
    have h6 : ("</log>".toList).length = 6 := rfl
    cases fuel with
    | zero => omega
    | succ fuel =>
      unfold xmlSpans
      have hbody : pre ++ ((b :: ks).flatten ++ tail) = pre ++ (b ++ (ks.flatten ++ tail)) := by
        simp [List.append_assoc]
      have hdrop : ∀ j, (pre ++ (b ++ (ks.flatten ++ tail))).drop (pre.length + j)
          = (b ++ (ks.flatten ++ tail)).drop j := fun j => List.drop_append j
      have hstart : findFrom "<log>".toList (pre ++ ((b :: ks).flatten ++ tail)) pre.length
          = some pre.length := by
        rw [hbody]
        apply findFrom_some_intro _ _ _ _ (Nat.le_refl _) (by simp)
        · have := hdrop 0
          simp only [Nat.add_zero, List.drop_zero] at this
          rw [this]
          exact hb1.trans (List.prefix_append _ _)
        · intro j hj1 hj2; omega
      have hstop : findFrom "</log>".toList (pre ++ ((b :: ks).flatten ++ tail)) pre.length
          = some (pre.length + (b.length - 6)) := by
        rw [hbody]
        apply findFrom_some_intro _ _ _ _ (by omega) (by simp; omega)
        · rw [hdrop, prefix_drop_append _ _ _ _ (by omega)]
          exact hb3
        · intro j hj1 hj2 hp
          rw [show j = pre.length + (j - pre.length) by omega, hdrop,
            prefix_drop_append _ _ _ _ (by omega)] at hp
          exact hb4 _ (by omega) hp
      rw [hstart]
      simp only
      rw [hstop]
      simp only [List.map_cons]
      have hblock : blockAt (pre ++ ((b :: ks).flatten ++ tail))
          (pre.length, pre.length + (b.length - 6)) = b := by
        unfold blockAt
        simp only
        rw [hbody, List.drop_left,
          show pre.length + (b.length - 6) + 6 - pre.length = b.length by omega, List.take_left]
      have hpos : pre.length + (b.length - 6) + 6 = (pre ++ b).length := by
        simp only [List.length_append]; omega
      have hbody2 : pre ++ ((b :: ks).flatten ++ tail) = (pre ++ b) ++ (ks.flatten ++ tail) := by
        simp [List.append_assoc]
      rw [hblock, hpos, hbody2]
      rw [ih (fun b1 h1 => hks b1 (List.mem_cons_of_mem _ h1)) (pre ++ b) fuel
        (by simp only [List.flatten_cons, List.length_append] at hf; omega)]

theorem xmlSpans_skip_logs (x : Str) (fuel : Nat) :
    xmlSpans ("<logs>".toList ++ x) fuel 0
      = xmlSpans ("<logs>".toList ++ x) fuel ("<logs>".toList).length := by
  cases fuel with
  | zero => rfl
  | succ fuel =>
    have : findFrom "<log>".toList ("<logs>".toList ++ x) 0
        = findFrom "<log>".toList ("<logs>".toList ++ x) ("<logs>".toList).length := by
      unfold findFrom
      have h1 : ¬ ("<logs>".toList ++ x).length < 0 := by omega
      have h2 : ¬ ("<logs>".toList ++ x).length < ("<logs>".toList).length := by
        simp only [List.length_append]; omega
      simp only [h1, h2, if_false, List.drop_zero, List.drop_left, find_log_after_logs,
        Option.map_map]
      congr 1
    unfold xmlSpans
    rw [this]

/-- The blocks of a document `<logs>`, blocks, `</logs>` are those blocks. -/
theorem xmlBlocks_wrapped (ks : List Str) (hks : ∀ b ∈ ks, IsBlock b) :
    xmlBlocks ("<logs>".toList ++ ks.flatten ++ "</logs>".toList) = ks := by
  unfold xmlBlocks
  rw [List.append_assoc, xmlSpans_skip_logs]
  exact xmlSpans_concat "</logs>".toList (by decide) ks hks "<logs>".toList _
    (by simp only [List.length_append]; omega)

/-- C6. The output of `filterXmlByDate` is `<logs>`, the blocks of the scan that are kept, in
order, and `</logs>`. A block whose extracted date is empty is kept iff `fromDate` is empty,
whatever `toDate` is; the date is empty when the block has no `<timestamp>`, when its
`<timestamp>` is not closed, and when the timestamp has fewer than 10 characters. -/
theorem filterXmlByDate_undated (xmlBody fromDate toDate : Str) :
    filterXmlByDate xmlBody fromDate toDate
        = some ("<logs>".toList
            ++ ((xmlBlocks xmlBody).filter (blockKept fromDate toDate)).flatten
            ++ "</logs>".toList)
      ∧ (∀ b, xmlDate b = some [] →
          (blockKept fromDate toDate b = true ↔ fromDate = [])
            ∧ ∀ toDate2, blockKept fromDate toDate2 b = blockKept fromDate toDate b)
      ∧ (∀ b, find "<timestamp>".toList b = none → xmlDate b = some [])
      ∧ (∀ b p, find "<timestamp>".toList b = some p →
          findFrom "</timestamp>".toList b (p + 11) = none → xmlDate b = some [])
      ∧ (∀ b ts, getTagValue b "timestamp".toList = some ts → ts.length < 10 →
          xmlDate b = some []) := by
  have hempty : ∀ f t : Str, xmlKeep f t [] = f.isEmpty := by
    intro f t
    unfold xmlKeep
    cases f with
    | nil => cases t <;> simp [strLt]
    | cons c cs => cases t <;> simp [strLt]
  refine ⟨filterXmlByDate_eq _ _ _, ?_, ?_, ?_, ?_⟩
  · intro b hb
    unfold blockKept
    rw [hb]
    simp only [Option.getD_some, hempty, List.isEmpty_iff, implies_true, and_self]
  · intro b hb
    have ho : "<".toList ++ "timestamp".toList ++ ">".toList = "<timestamp>".toList := rfl
    unfold xmlDate getTagValue
    simp only [ho, hb]
    rfl
  · intro b p hb hc
    have ho : "<".toList ++ "timestamp".toList ++ ">".toList = "<timestamp>".toList := rfl
    have hcl : "</".toList ++ "timestamp".toList ++ ">".toList = "</timestamp>".toList := rfl
    have hl : ("<timestamp>".toList).length = 11 := rfl
    unfold xmlDate getTagValue
    simp only [ho, hcl, hb, hl, hc]
    rfl
  · intro b ts hts hlen
    unfold xmlDate
    have : ¬ 10 ≤ ts.length := by omega
    rw [hts]
    simp [this]

/-- C7. The function `filterXmlByDate` is idempotent: it returns a text on every body, and on
that text, with the same bounds, it returns that text again; the rescan of the returned text
finds exactly the blocks that were kept, a block with a nested `<log>` included. -/
theorem filterXmlByDate_idempotent (xmlBody fromDate toDate : Str) :
    ∃ out, filterXmlByDate xmlBody fromDate toDate = some out
      ∧ filterXmlByDate out fromDate toDate = some out
      ∧ xmlBlocks out = (xmlBlocks xmlBody).filter (blockKept fromDate toDate) := by
  have hblock : ∀ b ∈ (xmlBlocks xmlBody).filter (blockKept fromDate toDate), IsBlock b :=
    fun b hb => xmlSpans_isBlock xmlBody _ _ b (List.mem_of_mem_filter hb)
  have hre := xmlBlocks_wrapped _ hblock
  refine ⟨_, filterXmlByDate_eq _ _ _, ?_, hre⟩
  rw [filterXmlByDate_eq, hre, List.filter_filter]
  simp

theorem startsWith_excl (p q line : Str) (h : startsWith p line = true)
    (h1 : startsWith q p = false) (h2 : startsWith p q = false) :
    startsWith q line = false := by
  cases hq : startsWith q line with
  | false => rfl
  | true =>
    rcases List.prefix_or_prefix_of_prefix ((startsWith_iff _ _).1 h)
      ((startsWith_iff _ _).1 hq) with hp | hp
    · rw [(startsWith_iff _ _).2 hp] at h2; cases h2
    · rw [(startsWith_iff _ _).2 hp] at h1; cases h1

theorem directiveValue_single (pre line cur : Str) :
    directiveValue pre [line] cur
      = if startsWith pre line = true then line.drop pre.length else cur := by
  unfold directiveValue
  cases hp : startsWith pre line <;> simp [List.filter_cons, hp]

theorem headerStep_eq (d : Directives) (line : Str) :
    headerStep d line = some
      { analysisStr := directiveValue "TYPE:".toList [line] d.analysisStr
        fromDate := directiveValue "FROM:".toList [line] d.fromDate
        toDate := directiveValue "TO:".toList [line] d.toDate } := by
  have hsub : ∀ (pre : Str), startsWith pre line = true →
      substrFrom line pre.length = some (line.drop pre.length) := by
    intro pre hp
    have := ((startsWith_iff _ _).1 hp).length_le
    have hn : ¬ line.length < pre.length := by omega
    simp [substrFrom, hn]
  have l5 : ("TYPE:".toList).length = 5 := rfl
  have l5' : ("FROM:".toList).length = 5 := rfl
  have l3 : ("TO:".toList).length = 3 := rfl
  simp only [directiveValue_single]
  unfold headerStep
  cases hT : startsWith "TYPE:".toList line with
  | true =>
    have hF : startsWith "FROM:".toList line = false :=
      startsWith_excl _ _ _ hT (by decide) (by decide)
    have hO : startsWith "TO:".toList line = false :=
      startsWith_excl _ _ _ hT (by decide) (by decide)
    have h5 := hsub _ hT
    rw [l5] at h5
    simp only [if_true, h5, Option.bind_eq_bind, Option.some_bind, hF, hO,
      Bool.false_eq_true, if_false, l5]
  | false =>
    cases hF : startsWith "FROM:".toList line with
    | true =>
      have hO : startsWith "TO:".toList line = false :=
        startsWith_excl _ _ _ hF (by decide) (by decide)
      have h5 := hsub _ hF
      rw [l5'] at h5
      simp only [if_true, h5, Option.bind_eq_bind, Option.some_bind, hO,
        Bool.false_eq_true, if_false, l5']
    | false =>
      cases hO : startsWith "TO:".toList line with
      | true =>
        have h3 := hsub _ hO
        rw [l3] at h3
        simp only [if_true, h3, Option.bind_eq_bind, Option.some_bind,
          Bool.false_eq_true, if_false, l3]
      | false =>
        simp only [Bool.false_eq_true, if_false]

theorem directiveValue_cons (pre : Str) (line : Str) (lines : List Str) (cur : Str) :
    directiveValue pre (line :: lines) cur
      = directiveValue pre lines (directiveValue pre [line] cur) := by
  unfold directiveValue
  cases hp : startsWith pre line with
  | true =>
    simp only [List.filter_cons, hp, if_true, List.getLast?_cons, List.filter_nil,
      List.getLast?_nil, Option.getD_none]
    cases (lines.filter (startsWith pre)).getLast? <;> rfl
  | false =>
    simp only [List.filter_cons, hp, Bool.false_eq_true, if_false, List.filter_nil,
      List.getLast?_nil]

theorem headerFold_eq (lines : List Str) (d : Directives) :
    lines.foldlM headerStep d = some
      { analysisStr := directiveValue "TYPE:".toList lines d.analysisStr
        fromDate := directiveValue "FROM:".toList lines d.fromDate
        toDate := directiveValue "TO:".toList lines d.toDate } := by
  induction lines generalizing d with
  | nil => rfl
  | cons l ls ih =>
    rw [List.foldlM_cons, headerStep_eq]
    simp only [Option.bind_eq_bind, Option.some_bind]
    rw [ih]
    simp only [← directiveValue_cons]

theorem parseHeader_eq (header : Str) :
    parseHeader header = some
      { analysisStr := directiveValue "TYPE:".toList (header.splitOn '\n') []
        fromDate := directiveValue "FROM:".toList (header.splitOn '\n') []
        toDate := directiveValue "TO:".toList (header.splitOn '\n') [] } := by
  unfold parseHeader
  rw [headerFold_eq]
  have h : ∀ pre : Str, startsWith pre [] = false →
      directiveValue pre (getlines '\n' header) [] = directiveValue pre (header.splitOn '\n') [] := by
    intro pre hp
    unfold directiveValue
    rw [getlines_filter_splitOn _ _ _ hp]
  rw [h _ (by decide), h _ (by decide), h _ (by decide)]

/-- C11. The header block is split into lines on `'\n'`. The `TYPE`, `FROM` and `TO` values
are the text after the prefix `TYPE:`, `FROM:`, `TO:` of the last line that begins with that
prefix, with nothing trimmed, and the empty string when no line begins with it; a line that
begins with none of the three prefixes leaves all three values as they are. -/
theorem parseHeader_spec (header : Str) :
    parseHeader header = some
        { analysisStr := directiveValue "TYPE:".toList (header.splitOn '\n') []
          fromDate := directiveValue "FROM:".toList (header.splitOn '\n') []
          toDate := directiveValue "TO:".toList (header.splitOn '\n') [] }
      ∧ (∀ pre line lines cur, startsWith pre line = true →
          (∀ l ∈ lines, startsWith pre l = false) →
          directiveValue pre (line :: lines) cur = line.drop pre.length)
      ∧ (∀ pre lines cur, (∀ l ∈ lines, startsWith pre l = false) →
          directiveValue pre lines cur = cur)
      ∧ (∀ d line, startsWith "TYPE:".toList line = false →
          startsWith "FROM:".toList line = false → startsWith "TO:".toList line = false →
          headerStep d line = some d) := by
  have hnone : ∀ (pre : Str) (lines : List Str) (cur : Str),
      (∀ l ∈ lines, startsWith pre l = false) → directiveValue pre lines cur = cur := by
    intro pre lines cur h
    unfold directiveValue
    have : lines.filter (startsWith pre) = [] := by
      rw [List.filter_eq_nil_iff]
      intro l hl
      simp [h l hl]
    rw [this]
    rfl
  refine ⟨parseHeader_eq header, ?_, hnone, ?_⟩
  · intro pre line lines cur hp hl
    rw [directiveValue_cons, hnone _ _ _ hl]
    unfold directiveValue
    simp [hp]
  · intro d line h1 h2 h3
    unfold headerStep
    simp only [h1, h2, h3, Bool.false_eq_true, if_false]

theorem parseHeader_spec_witness :
    parseHeader "TYPE:IP\nFROM:a\nnote\nFROM: b \nXTO:c".toList
      = some { analysisStr := "IP".toList, fromDate := " b ".toList, toDate := [] } :=
  (parseHeader_spec "TYPE:IP\nFROM:a\nnote\nFROM: b \nXTO:c".toList).1.trans (by decide)

/-- C12. The analysis type chosen for the `TYPE` value `s` is `BY_USER` iff `s` is `USER`,
`BY_IP` iff `s` is `IP`, and `BY_LOG_LEVEL` for every other `s`, among them `LOG_LEVEL`,
`user`, `USER ` and the empty string. -/
theorem analysisTypeOf_spec (s : Str) :
    (analysisTypeOf s = .BY_USER ↔ s = "USER".toList)
      ∧ (analysisTypeOf s = .BY_IP ↔ s = "IP".toList)
      ∧ (analysisTypeOf s = .BY_LOG_LEVEL ↔ (s ≠ "USER".toList ∧ s ≠ "IP".toList))
      ∧ analysisTypeOf "LOG_LEVEL".toList = .BY_LOG_LEVEL
      ∧ analysisTypeOf "user".toList = .BY_LOG_LEVEL
      ∧ analysisTypeOf "USER ".toList = .BY_LOG_LEVEL
      ∧ analysisTypeOf [] = .BY_LOG_LEVEL := by
  have hU : analysisTypeOf "USER".toList = .BY_USER := by decide
  have hI : analysisTypeOf "IP".toList = .BY_IP := by decide
  have hO : s ≠ "USER".toList → s ≠ "IP".toList → analysisTypeOf s = .BY_LOG_LEVEL := by
    intro h1 h2
    unfold analysisTypeOf
    rw [if_neg h1, if_neg h2]
  refine ⟨?_, ?_, ?_, by decide, by decide, by decide, by decide⟩
  · constructor
    · intro h
      by_contra h1
      by_cases h2 : s = "IP".toList
      · rw [h2, hI] at h; cases h
      · rw [hO h1 h2] at h; cases h
    · intro h; rw [h, hU]
  · constructor
    · intro h
      by_contra h2
      by_cases h1 : s = "USER".toList
      · rw [h1, hU] at h; cases h
      · rw [hO h1 h2] at h; cases h
    · intro h; rw [h, hI]
  · constructor
    · intro h
      constructor
      · intro h1; rw [h1, hU] at h; cases h
      · intro h2; rw [h2, hI] at h; cases h
    · intro h; exact hO h.1 h.2

/-- C13 (the claim as stated fails). The body `[\x7b"log_level":"INFO"\x7d]]` is not
well-formed JSON, but the extraction `iss >> j` is not strict: it reads the leading array and
leaves the last `]` unread. `JSONParser::parse` then counts the record instead of returning
the empty table, `filterJsonByDate` returns the dump of the array instead of the body, and
the session answers `INFO: 1` instead of the line for an empty table. -/
theorem json_trailing_text_counted :
    extractSample (sampleText ++ "]".toList) = some sampleValue
      ∧ JSONParser.parse extractSample (sampleText ++ "]".toList) .BY_LOG_LEVEL
          = some [("INFO".toList, 1)]
      ∧ JSONParser.parse extractSample (sampleText ++ "]".toList) .BY_LOG_LEVEL ≠ some []
      ∧ filterJsonByDate extractSample dumpSample (sampleText ++ "]".toList) [] []
          = some sampleText
      ∧ filterJsonByDate extractSample dumpSample (sampleText ++ "]".toList) [] []
          ≠ some (sampleText ++ "]".toList)
      ∧ detectFileType (sampleText ++ "]".toList) = .JSON
      ∧ serve extractSample dumpSample "TYPE:LOG_LEVEL".toList (sampleText ++ "]".toList)
          = [.detect (sampleText ++ "]".toList), .filter .JSON (sampleText ++ "]".toList),
              .parse .JSON sampleText, .send "INFO: 1\n".toList, .close] := by
  refine ⟨rfl, ?_, ?_, ?_, ?_, ?_, ?_⟩ <;> decide

/-- C13 (amended). When the library's extraction throws a parse error on the body,
`JSONParser::parse` returns the empty table for every analysis type without raising and
`filterJsonByDate` returns the body unchanged; so the session of a request that is framed
into a header and such a body sniffed as JSON runs the filter and the parser on the body and
sends the line for an empty table, then closes. -/
theorem json_malformed (parseJson : Str → Option Json) (dump : Json → Str)
    (header body fromDate toDate : Str) (type : AnalysisType) (h : parseJson body = none) :
    JSONParser.parse parseJson body type = some []
      ∧ filterJsonByDate parseJson dump body fromDate toDate = some body
      ∧ (detectFileType body = .JSON →
          serve parseJson dump header body
            = [.detect body, .filter .JSON body, .parse .JSON body, .send noMatchLine,
                .close])
      ∧ (∀ recvBuf, splitHeaderBody recvBuf = .framed header body →
          detectFileType body = .JSON →
          handleClient parseJson dump recvBuf
            = [.detect body, .filter .JSON body, .parse .JSON body, .send noMatchLine,
                .close]) := by
  have h1 : ∀ ty, JSONParser.parse parseJson body ty = some [] := by
    intro ty; unfold JSONParser.parse; rw [h]
  have h2 : ∀ f t, filterJsonByDate parseJson dump body f t = some body := by
    intro f t; unfold filterJsonByDate; rw [h]
  have h3 : detectFileType body = .JSON →
      serve parseJson dump header body
        = [.detect body, .filter .JSON body, .parse .JSON body, .send noMatchLine,
            .close] := by
    intro hft
    unfold serve
    rw [parseHeader_eq]
    simp only [hft, filterBody, parseBody, h1, h2]
    rfl
  refine ⟨h1 _, h2 _ _, h3, ?_⟩
  intro recvBuf hframe hft
  unfold handleClient
  rw [hframe]
  exact h3 hft

theorem json_malformed_witness :
    extractSample "[\x7b\x22log_level\x22:".toList = none
      ∧ handleClient extractSample dumpSample
          "TYPE:IP\nFROM:2024-01-01\n\n[\x7b\x22log_level\x22:".toList
          = [.detect "[\x7b\x22log_level\x22:".toList,
              .filter .JSON "[\x7b\x22log_level\x22:".toList,
              .parse .JSON "[\x7b\x22log_level\x22:".toList, .send noMatchLine, .close] :=
  ⟨rfl,
    (json_malformed extractSample dumpSample "TYPE:IP\nFROM:2024-01-01".toList
      "[\x7b\x22log_level\x22:".toList "2024-01-01".toList [] .BY_IP rfl).2.2.2
      "TYPE:IP\nFROM:2024-01-01\n\n[\x7b\x22log_level\x22:".toList (by decide) (by decide)⟩

theorem total_increment (key : Str) (t : CountTable) :
    total (increment key t) = total t + 1 := by
  induction t with
  | nil => rfl
  | cons p rest ih =>
    obtain ⟨k, n⟩ := p
    unfold increment
    by_cases hk : k = key
    · simp only [hk, if_true, total, List.map_cons, List.sum_cons]
      omega
    · simp only [hk, if_false]
      simp only [total, List.map_cons, List.sum_cons] at ih ⊢
      omega

theorem countOf_increment (key k : Str) (t : CountTable) :
    countOf k (increment key t) = countOf k t + (if key = k then 1 else 0) := by
  induction t with
  | nil =>
    simp only [increment, countOf]
    omega
  | cons p rest ih =>
    obtain ⟨a, n⟩ := p
    unfold increment
    by_cases ha : a = key
    · subst ha
      by_cases hk : a = k
      · simp [countOf, hk]
      · simp [countOf, hk]
    · simp only [ha, if_false]
      by_cases hk : a = k
      · subst hk
        have : ¬ key = a := fun h => ha h.symm
        simp [countOf, this]
      · simp only [countOf, hk, if_false, ih]

theorem jsonStep_level (result : CountTable) (e : Json) (h : hasLogLevel e = true) :
    ∃ s, logLevelOf e = some s ∧ jsonStep .BY_LOG_LEVEL result e = some (increment s result) := by
  unfold hasLogLevel at h
  cases hl : logLevelOf e with
  | none => rw [hl] at h; cases h
  | some s =>
    rw [hl] at h
    refine ⟨s, rfl, ?_⟩
    cases e with
    | obj members =>
      unfold logLevelOf at hl
      unfold jsonStep jsonKey Json.atConst
      simp only at hl ⊢
      generalize members.lookup "log_level".toList = r at hl ⊢
      cases r with
      | none => cases hl
      | some v =>
        cases v with
        | str s2 =>
          simp only [Option.some.injEq] at hl
          subst hl
          simp only [Json.getString, Option.bind_eq_bind, Option.some_bind]
          simp only [Bool.not_eq_true'] at h
          simp [h]
        | null => cases hl
        | bool b => cases hl
        | num n => cases hl
        | arr l => cases hl
        | obj l => cases hl
    | null => cases hl
    | bool b => cases hl
    | num n => cases hl
    | str s => cases hl
    | arr l => cases hl

theorem jsonLevel_fold (elems : List Json) (h : elems.all hasLogLevel = true)
    (result : CountTable) :
    ∃ t, elems.foldlM (jsonStep .BY_LOG_LEVEL) result = some t
      ∧ total t = total result + elems.length
      ∧ ∀ k, countOf k t
          = countOf k result + elems.countP fun e => decide (logLevelOf e = some k) := by
  induction elems generalizing result with
  | nil => exact ⟨result, rfl, rfl, fun k => rfl⟩
  | cons e es ih =>
    simp only [List.all_cons, Bool.and_eq_true] at h
    obtain ⟨s, hs, hstep⟩ := jsonStep_level result e h.1
    obtain ⟨t, ht, htot, hcnt⟩ := ih h.2 (increment s result)
    refine ⟨t, ?_, ?_, ?_⟩
    · rw [List.foldlM_cons, hstep]
      exact ht
    · rw [htot, total_increment, List.length_cons]
      omega
    · intro k
      rw [hcnt, countOf_increment, List.countP_cons, hs]
      by_cases hk : s = k
      · simp [hk]; omega
      · simp [hk]

/-- C14. When the body parses to an array of `N` objects that each carry a non-empty string
`log_level`, `JSONParser::parse` grouped by log level returns a table whose counts sum to `N`
and in which the count of every key is the number of elements with that `log_level`. -/
theorem json_parse_log_level (parseJson : Str → Option Json) (body : Str) (elems : List Json)
    (hparse : parseJson body = some (.arr elems))
    (hlevel : elems.all hasLogLevel = true) :
    ∃ t, JSONParser.parse parseJson body .BY_LOG_LEVEL = some t
      ∧ total t = elems.length
      ∧ ∀ k, countOf k t = elems.countP fun e => decide (logLevelOf e = some k) := by
  obtain ⟨t, ht, htot, hcnt⟩ := jsonLevel_fold elems hlevel []
  refine ⟨t, ?_, ?_, ?_⟩
  · unfold JSONParser.parse
    rw [hparse]
    exact ht
  · rw [htot]
    simp [total]
  · intro k
    rw [hcnt k]
    simp [countOf]

theorem json_parse_log_level_witness :
    ∃ t, JSONParser.parse
          (fun _ => some (.arr [stamped "2024-01-01T00:00:00".toList, unstamped,
            .obj [("log_level".toList, .str "WARN".toList)]])) [] .BY_LOG_LEVEL = some t
      ∧ total t = 3
      ∧ ∀ k, countOf k t
          = [stamped "2024-01-01T00:00:00".toList, unstamped,
              Json.obj [("log_level".toList, .str "WARN".toList)]].countP
              fun e => decide (logLevelOf e = some k) :=
  json_parse_log_level
    (fun _ => some (.arr [stamped "2024-01-01T00:00:00".toList, unstamped,
      .obj [("log_level".toList, .str "WARN".toList)]])) [] _ rfl (by decide)


theorem toDigitsCore_suffix (fuel n : Nat) (ds : List Char) :
    ∃ pre, Nat.toDigitsCore 10 fuel n ds = pre ++ ds := by
  induction fuel generalizing n ds with
  | zero => exact ⟨[], rfl⟩
  | succ fuel ih =>
    unfold Nat.toDigitsCore
    by_cases h : n / 10 = 0
    · simp only [h, if_true]
      exact ⟨[(n % 10).digitChar], rfl⟩
    · simp only [h, if_false]
      obtain ⟨pre, hp⟩ := ih (n / 10) ((n % 10).digitChar :: ds)
      exact ⟨pre ++ [(n % 10).digitChar], by rw [hp]; simp⟩

theorem digitChar_ne_dot : ∀ m, m < 10 → Nat.digitChar m ≠ '.' := by decide

/-- The decimal text of a count ends with a digit, which is not a full stop. -/
theorem to_string_last (n : Nat) :
    ∃ pre d, to_string (n : Int) = pre ++ [d] ∧ d ≠ '.' := by
  have h : to_string (n : Int) = Nat.toDigits 10 n := rfl
  rw [h]
  unfold Nat.toDigits
  obtain ⟨pre, hp⟩ := toDigitsCore_suffix n (n / 10) [(n % 10).digitChar]
  refine ⟨if n / 10 = 0 then [] else pre, (n % 10).digitChar, ?_,
    digitChar_ne_dot _ (Nat.mod_lt _ (by omega))⟩
  unfold Nat.toDigitsCore
  by_cases h0 : n / 10 = 0
  · simp [h0]
  · simp only [h0, if_false]
    exact hp

theorem entryLines_last (t : CountTable) (ht : t ≠ []) :
    ∃ pre d, t.flatMap entryLine = pre ++ [d, '\n'] ∧ d ≠ '.' := by
  induction t with
  | nil => exact absurd rfl ht
  | cons p rest ih =>
    by_cases hr : rest = []
    · subst hr
      obtain ⟨pre, d, hd, hne⟩ := to_string_last p.2
      refine ⟨p.1 ++ ": ".toList ++ pre, d, ?_, hne⟩
      simp only [List.flatMap_cons, List.flatMap_nil, List.append_nil, entryLine, hd]
      simp [List.append_assoc]
    · obtain ⟨pre, d, hd, hne⟩ := ih hr
      refine ⟨entryLine p ++ pre, d, ?_, hne⟩
      rw [List.flatMap_cons, hd, List.append_assoc]

/-- C18. The response of a table is the fixed line `[INFO] No entries matched your query.`
iff the table is empty; the response of a non-empty table is the concatenation of one line
key, `": "`, decimal count, newline per entry, and that concatenation is never the fixed
line. -/
theorem respond_spec (t : CountTable) :
    (respond t = noMatchLine ↔ t = [])
      ∧ (t ≠ [] → respond t = t.flatMap entryLine)
      ∧ (t ≠ [] → t.flatMap entryLine ≠ noMatchLine) := by
  have hne : t ≠ [] → t.flatMap entryLine ≠ noMatchLine := by
    intro ht heq
    obtain ⟨pre, d, hd, hdot⟩ := entryLines_last t ht
    have hfix : noMatchLine = "[INFO] No entries matched your query".toList ++ ['.', '\n'] := rfl
    rw [hd, hfix] at heq
    have := (List.append_inj' heq rfl).2
    simp only [List.cons.injEq, and_true] at this
    exact hdot this
  have hresp : t ≠ [] → respond t = t.flatMap entryLine := by
    intro ht
    unfold respond
    cases t with
    | nil => exact absurd rfl ht
    | cons p rest => rfl
  refine ⟨?_, hresp, hne⟩
  constructor
  · intro h
    by_contra ht
    rw [hresp ht] at h
    exact hne ht h
  · intro h
    subst h
    rfl

theorem respond_spec_witness :
    respond [("INFO".toList, 12), ("[INFO] No entries matched your query.\n".toList, 0)]
      = "INFO: 12\n[INFO] No entries matched your query.\n: 0\n".toList :=
  ((respond_spec [("INFO".toList, 12),
    ("[INFO] No entries matched your query.\n".toList, 0)]).2.1 (by decide)).trans (by decide)

theorem rdropWhile_append_all (p : Char → Bool) (y b : Str) (hb : ∀ c ∈ b, p c = true) :
    (y ++ b).rdropWhile p = y.rdropWhile p := by
  induction b using List.reverseRecOn with
  | nil => simp
  | append_singleton bs z ih =>
    rw [← List.append_assoc, List.rdropWhile_concat_pos _ _ _ (hb z (by simp))]
    exact ih fun c hc => hb c (by simp [hc])

theorem rdropWhile_append_ne (p : Char → Bool) (a y : Str) (hy : y.rdropWhile p ≠ []) :
    (a ++ y).rdropWhile p = a ++ y.rdropWhile p := by
  induction y using List.reverseRecOn with
  | nil => simp at hy
  | append_singleton ys z ih =>
    by_cases hz : p z = true
    · rw [List.rdropWhile_concat_pos _ _ _ hz] at hy ⊢
      rw [← List.append_assoc, List.rdropWhile_concat_pos _ _ _ hz]
      exact ih hy
    · rw [List.rdropWhile_concat_neg _ _ _ hz, ← List.append_assoc,
        List.rdropWhile_concat_neg _ _ _ hz]

theorem dropWhile_append_all (p : Char → Bool) (a y : Str) (ha : ∀ c ∈ a, p c = true) :
    (a ++ y).dropWhile p = y.dropWhile p := by
  induction a with
  | nil => rfl
  | cons c cs ih =>
    rw [List.cons_append, List.dropWhile_cons, if_pos (ha c (List.mem_cons_self _ _))]
    exact ih fun d hd => ha d (List.mem_cons_of_mem _ hd)

/-- The middle of a text between a removable head and a removable tail is what `strip`
returns. -/
theorem strip_eq_of_decomp (set a m b : Str) (ha : ∀ c ∈ a, set.contains c = true)
    (hb : ∀ c ∈ b, set.contains c = true)
    (hm : m = [] ∨ (m.dropWhile set.contains = m ∧ m.rdropWhile set.contains = m)) :
    strip set (a ++ m ++ b) = m := by
  unfold strip
  rw [List.append_assoc, dropWhile_append_all _ _ _ ha]
  rcases hm with rfl | ⟨h1, h2⟩
  · rw [List.nil_append, List.dropWhile_eq_nil_iff.2 hb]
    rfl
  · by_cases hne : m = []
    · subst hne
      rw [List.nil_append, List.dropWhile_eq_nil_iff.2 hb]
      rfl
    · have : (m ++ b).dropWhile set.contains = m ++ b := by
        cases m with
        | nil => exact absurd rfl hne
        | cons c cs =>
          rw [List.dropWhile_cons] at h1
          by_cases hc : set.contains c = true
          · rw [if_pos hc] at h1
            have := (List.dropWhile_suffix (l := cs) set.contains).length_le
            rw [h1] at this
            simp at this
          · rw [List.cons_append, List.dropWhile_cons, if_neg hc]
      rw [this, rdropWhile_append_all _ _ _ hb, h2]

theorem strip_decomp (set x : Str) :
    ∃ a b, x = a ++ strip set x ++ b ∧ (∀ c ∈ a, set.contains c = true)
      ∧ (∀ c ∈ b, set.contains c = true)
      ∧ (strip set x).dropWhile set.contains = strip set x
      ∧ (strip set x).rdropWhile set.contains = strip set x := by
  obtain ⟨b, hb⟩ := List.rdropWhile_prefix set.contains (x.dropWhile set.contains)
  have hball : ∀ c ∈ b, set.contains c = true := by
    by_cases hne : (x.dropWhile set.contains).rdropWhile set.contains = []
    · have hall := List.rdropWhile_eq_nil_iff.1 hne
      rw [hne, List.nil_append] at hb
      intro c hc
      exact hall c (hb ▸ hc)
    · have h1 := rdropWhile_append_ne set.contains [] _ hne
      by_contra hcon
      simp only [not_forall] at hcon
      obtain ⟨c, hc, hpc⟩ := hcon
      -- the tail `b` is removed by `rdropWhile`, so it holds no kept character
      have h2 : ((x.dropWhile set.contains).rdropWhile set.contains ++ b).rdropWhile
          set.contains = (x.dropWhile set.contains).rdropWhile set.contains := by
        rw [hb]
      have h3 : b.rdropWhile set.contains ≠ [] := by
        intro h
        exact hpc (List.rdropWhile_eq_nil_iff.1 h c hc)
      rw [rdropWhile_append_ne _ _ _ h3] at h2
      have := congrArg List.length h2
      simp only [List.length_append] at this
      have h4 : (b.rdropWhile set.contains).length = 0 := by omega
      exact h3 (List.length_eq_zero.1 h4)
  refine ⟨x.takeWhile set.contains, b, ?_, fun c hc => List.mem_takeWhile_imp hc, hball, ?_, ?_⟩
  · unfold strip
    rw [List.append_assoc, hb, List.takeWhile_append_dropWhile]
  · unfold strip
    by_cases hne : (x.dropWhile set.contains).rdropWhile set.contains = []
    · rw [hne]; rfl
    · have hd : x.dropWhile set.contains ≠ [] := by
        intro h; rw [h] at hne; exact hne rfl
      have hhead := List.head_dropWhile_not set.contains x hd
      generalize hy : x.dropWhile set.contains = y at *
      cases y with
      | nil => exact absurd rfl hd
      | cons c cs =>
        simp only [List.head_cons] at hhead
        have hpre := List.rdropWhile_prefix set.contains (c :: cs)
        generalize hm : (c :: cs).rdropWhile set.contains = m at *
        cases m with
        | nil => exact absurd rfl hne
        | cons c2 m2 =>
          have : c2 = c := by
            obtain ⟨t, ht⟩ := hpre
            simp only [List.cons_append, List.cons.injEq] at ht
            exact ht.1
          subst this
          rw [List.dropWhile_cons, hhead]
          simp
  · unfold strip
    by_cases hne : (x.dropWhile set.contains).rdropWhile set.contains = []
    · rw [hne]; rfl
    · rw [List.rdropWhile_eq_self_iff]
      intro hl
      exact List.rdropWhile_last_not _ _ hl

/-- Stripping a smaller set first does not change what stripping a larger set gives. -/
theorem strip_strip (small big x : Str) (h : ∀ c, small.contains c = true → big.contains c = true) :
    strip big (strip small x) = strip big x := by
  obtain ⟨a, b, hx, ha, hb, _, _⟩ := strip_decomp small x
  obtain ⟨a2, b2, hm, ha2, hb2, h1, h2⟩ := strip_decomp big (strip small x)
  have hx2 : x = (a ++ a2) ++ strip big (strip small x) ++ (b2 ++ b) := by
    conv_lhs => rw [hx, hm]
    simp only [List.append_assoc]
  conv_rhs => rw [hx2]
  rw [strip_eq_of_decomp big _ _ _ ?_ ?_ (Or.inr ⟨h1, h2⟩)]
  · intro c hc
    rcases List.mem_append.1 hc with hc | hc
    · exact h c (ha c hc)
    · exact ha2 c hc
  · intro c hc
    rcases List.mem_append.1 hc with hc | hc
    · exact hb2 c hc
    · exact h c (hb c hc)

theorem ffno_none (set x : Str) (h : find_first_not_of set x = none) :
    ∀ c ∈ x, set.contains c = true := by
  induction x with
  | nil => intro c hc; cases hc
  | cons a as ih =>
    unfold find_first_not_of at h
    by_cases ha : set.contains a = true
    · simp only [ha, if_true, Option.map_eq_none'] at h
      intro c hc
      rcases List.mem_cons.1 hc with rfl | hc
      · exact ha
      · exact ih h c hc
    · have hfalse : set.contains a = false := by simpa using ha
      rw [hfalse] at h
      simp only [Bool.false_eq_true, if_false] at h
      cases h

theorem ffno_some (set x : Str) (i : Nat) (h : find_first_not_of set x = some i) :
    i ≤ x.length ∧ x.drop i = x.dropWhile set.contains ∧ x.dropWhile set.contains ≠ [] := by
  induction x generalizing i with
  | nil => cases h
  | cons a as ih =>
    unfold find_first_not_of at h
    by_cases ha : set.contains a = true
    · simp only [ha, if_true] at h
      cases hf : find_first_not_of set as with
      | none => rw [hf] at h; cases h
      | some k =>
        rw [hf] at h
        simp only [Option.map_some', Option.some.injEq] at h
        subst h
        obtain ⟨h1, h2, h3⟩ := ih k hf
        rw [List.dropWhile_cons, if_pos ha]
        exact ⟨by simpa using h1, by simpa using h2, h3⟩
    · simp only [ha, Bool.false_eq_true, if_false, Option.some.injEq] at h
      subst h
      rw [List.dropWhile_cons, if_neg ha]
      simp

theorem flno_none (set y : Str) (h : find_last_not_of set y = none) :
    ∀ c ∈ y, set.contains c = true := by
  induction y with
  | nil => intro c hc; cases hc
  | cons a as ih =>
    unfold find_last_not_of at h
    cases hf : find_last_not_of set as with
    | some k => rw [hf] at h; cases h
    | none =>
      rw [hf] at h
      by_cases ha : set.contains a = true
      · intro c hc
        rcases List.mem_cons.1 hc with rfl | hc
        · exact ha
        · exact ih hf c hc
      · have hfalse : set.contains a = false := by simpa using ha
        rw [hfalse] at h
        simp only [Bool.false_eq_true, if_false] at h
        cases h

theorem flno_some (set y : Str) (j : Nat) (h : find_last_not_of set y = some j) :
    y.take (j + 1) = y.rdropWhile set.contains := by
  induction y generalizing j with
  | nil => cases h
  | cons a as ih =>
    unfold find_last_not_of at h
    cases hf : find_last_not_of set as with
    | some k =>
      rw [hf] at h
      simp only [Option.some.injEq] at h
      subst h
      have hk := ih k hf
      have hne : as.rdropWhile set.contains ≠ [] := by
        rw [← hk]
        cases as with
        | nil => cases hf
        | cons b bs => simp
      have := rdropWhile_append_ne set.contains [a] as hne
      rw [List.singleton_append, List.singleton_append] at this
      rw [this, ← hk]
      rfl
    | none =>
      rw [hf] at h
      by_cases ha : set.contains a = true
      · simp only [ha, if_true] at h
        cases h
      · have hfalse : set.contains a = false := by simpa using ha
        rw [hfalse] at h
        simp only [Bool.false_eq_true, if_false, Option.some.injEq] at h
        subst h
        have h1 := rdropWhile_append_all set.contains [a] as (flno_none set as hf)
        rw [List.singleton_append] at h1
        rw [h1]
        have h2 := List.rdropWhile_concat_neg set.contains [] a ha
        rw [List.nil_append] at h2
        rw [h2]
        rfl

theorem flno_append (set a y : Str) (j : Nat) (h : find_last_not_of set y = some j) :
    find_last_not_of set (a ++ y) = some (a.length + j) := by
  induction a with
  | nil => simpa using h
  | cons c cs ih =>
    rw [List.cons_append, find_last_not_of, ih]
    simp only [List.length_cons, Option.some.injEq]
    omega

/-- The trim the parser performs with `find_first_not_of`, `find_last_not_of` and `substr`
returns the stripped text, once the first search has found a position. -/
theorem substr_trim (set x : Str) (i : Nat) (hi : find_first_not_of set x = some i) :
    substr x i (sizeSub (posValue (find_last_not_of set x)) i + 1) = some (strip set x) := by
  obtain ⟨h1, h2, h3⟩ := ffno_some set x i hi
  have hy : ∃ j, find_last_not_of set (x.dropWhile set.contains) = some j := by
    cases hf : find_last_not_of set (x.dropWhile set.contains) with
    | some j => exact ⟨j, rfl⟩
    | none =>
      have hall := flno_none _ _ hf
      have hh := List.head_dropWhile_not set.contains x h3
      rw [hall _ (List.head_mem h3)] at hh
      cases hh
  obtain ⟨j, hj⟩ := hy
  have hx : x = x.take i ++ x.dropWhile set.contains := by
    rw [← h2, List.take_append_drop]
  have hlen : (x.take i).length = i := by
    rw [List.length_take]; omega
  have hl : find_last_not_of set x = some (i + j) := by
    have := flno_append set (x.take i) _ j hj
    rw [← hx, hlen] at this
    exact this
  rw [hl]
  simp only [posValue]
  rw [sizeSub_of_le _ _ (by omega), substr_of_le _ _ _ h1, h2,
    show i + j - i + 1 = j + 1 by omega, flno_some set _ j hj]
  rfl

theorem strip_of_all (set x : Str) (h : ∀ c ∈ x, set.contains c = true) : strip set x = [] := by
  unfold strip
  rw [List.dropWhile_eq_nil_iff.2 h]
  rfl

theorem trimPart_eq (part : Str) : trimPart part = some (strip " \t".toList part) := by
  unfold trimPart
  cases hf : find_first_not_of " \t".toList part with
  | none =>
    simp only
    rw [strip_of_all _ _ (ffno_none _ _ hf)]
  | some i =>
    simp only
    exact substr_trim _ _ _ hf

theorem trimKey_eq (key : Str) (h : strip " \t\r\n".toList key ≠ []) :
    trimKey key = some (strip " \t\r\n".toList key) := by
  unfold trimKey
  cases hf : find_first_not_of " \t\r\n".toList key with
  | none => exact absurd (strip_of_all _ _ (ffno_none _ _ hf)) h
  | some i =>
    simp only [posValue]
    have := substr_trim _ _ _ hf
    exact this

theorem find_colon (field : Str) :
    match find [':'] field with
    | none => afterColon field = []
    | some pos => pos + 1 ≤ field.length ∧ field.drop (pos + 1) = afterColon field := by
  induction field with
  | nil => simp [find, afterColon]
  | cons c cs ih =>
    unfold find afterColon
    by_cases hc : c = ':'
    · subst hc
      simp [startsWith, List.isPrefixOf, List.dropWhile_cons]
    · have hb : (':' == c) = false := by
        simp only [beq_eq_false_iff_ne, ne_eq]
        exact fun h => hc h.symm
      have hb2 : (c != ':') = true := by simpa using hc
      simp only [startsWith, List.isPrefixOf, hb, Bool.false_and, Bool.false_eq_true, if_false,
        List.dropWhile_cons, hb2, if_true]
      cases hf : find [':'] cs with
      | none =>
        rw [hf] at ih
        simpa [afterColon] using ih
      | some pos =>
        rw [hf] at ih
        simp only [Option.map_some', List.length_cons, List.drop_succ_cons]
        exact ⟨by omega, by simpa [afterColon] using ih.2⟩

theorem extractValue_eq (field : Str) :
    extractValue field = some (strip " \t".toList (afterColon field)) := by
  unfold extractValue
  have hc := find_colon field
  cases hf : find [':'] field with
  | none =>
    rw [hf] at hc
    simp only at hc ⊢
    rw [hc]
    rfl
  | some pos =>
    rw [hf] at hc
    simp only at hc ⊢
    have hn : ¬ field.length < pos + 1 := by omega
    simp only [substrFrom, hn, if_false, hc.2, Option.bind_eq_bind, Option.some_bind]
    exact trimPart_eq (afterColon field)

theorem mapM_some {α β : Type} (f : α → Option β) (g : α → β) (h : ∀ a, f a = some (g a))
    (l : List α) : l.mapM f = some (l.map g) := by
  induction l with
  | nil => rfl
  | cons a as ih =>
    rw [List.mapM_cons, h a, ih]
    rfl

theorem splitParts_eq (line : Str) :
    splitParts line = some ((getlines '|' line).map (strip " \t".toList)) := by
  unfold splitParts
  exact mapM_some _ _ trimPart_eq _

theorem getlines_lines_append (d : Char) (ls : List Str) (rest : Str)
    (h : ∀ l ∈ ls, d ∉ l) :
    getlines d ((ls.flatMap fun l => l ++ [d]) ++ rest) = ls ++ getlines d rest := by
  induction ls with
  | nil => rfl
  | cons l ls ih =>
    simp only [List.flatMap_cons, List.append_assoc, List.singleton_append, List.cons_append]
    rw [getlines_line_append d l _ (h l (List.mem_cons_self _ _)), List.nil_append]
    rw [ih fun l1 h1 => h l1 (List.mem_cons_of_mem _ h1)]

theorem getlines_single (d : Char) (line : Str) (h : d ∉ line) :
    getlines d line = if line = [] then [] else [line] := by
  induction line with
  | nil => rfl
  | cons c cs ih =>
    simp only [List.mem_cons, not_or] at h
    have hc : c ≠ d := fun e => h.1 e.symm
    rw [getlines, if_neg hc, ih h.2]
    by_cases hcs : cs = []
    · subst hcs; simp
    · simp [hcs]

theorem getlines_chars (d : Char) (s : Str) : ∀ l ∈ getlines d s, ∀ c ∈ l, c ∈ s := by
  induction s with
  | nil => intro l hl; simp [getlines] at hl
  | cons a as ih =>
    intro l hl c hc
    unfold getlines at hl
    by_cases ha : a = d
    · simp only [ha, if_true, List.mem_cons] at hl
      rcases hl with rfl | hl
      · cases hc
      · exact List.mem_cons_of_mem _ (ih l hl c hc)
    · simp only [ha, if_false] at hl
      cases hg : getlines d as with
      | nil =>
        rw [hg] at hl
        simp only [List.mem_singleton] at hl
        subst hl
        simp only [List.mem_singleton] at hc
        subst hc
        exact List.mem_cons_self _ _
      | cons l1 ls =>
        rw [hg] at hl ih
        simp only [List.mem_cons] at hl
        rcases hl with rfl | hl
        · rcases List.mem_cons.1 hc with rfl | hc
          · exact List.mem_cons_self _ _
          · exact List.mem_cons_of_mem _ (ih l1 (List.mem_cons_self _ _) c hc)
        · exact List.mem_cons_of_mem _ (ih l (List.mem_cons_of_mem _ hl) c hc)

theorem txtStep_short (type : AnalysisType) (result : CountTable) (line : Str)
    (h : (getlines '|' line).length < 5) : txtStep type result line = some result := by
  unfold txtStep
  by_cases he : line.isEmpty = true
  · simp [he]
  · simp only [he, Bool.false_eq_true, if_false, splitParts_eq, Option.bind_eq_bind,
      Option.some_bind, List.length_map, h, if_true]

theorem txtFold_short (type : AnalysisType) (lines : List Str)
    (h : ∀ l ∈ lines, (getlines '|' l).length < 5) (result : CountTable) :
    lines.foldlM (txtStep type) result = some result := by
  induction lines with
  | nil => rfl
  | cons l ls ih =>
    rw [List.foldlM_cons, txtStep_short _ _ _ (h l (List.mem_cons_self _ _))]
    exact ih fun l1 h1 => h l1 (List.mem_cons_of_mem _ h1)

/-- C15. A line that yields fewer than five `|`-delimited fields leaves the table as it is,
and `TXTParser::parse` returns for the body the same as for the body with that line removed,
whether the line is followed by a newline or ends the body. The lines `a|b|c|d|` and
`2024-01-01 | INFO | msg | UserID: 1` (three `|`) yield four fields. -/
theorem txt_short_line_skipped (type : AnalysisType) (before : List Str) (line rest : Str)
    (hbefore : ∀ l ∈ before, '\n' ∉ l) (hline : '\n' ∉ line)
    (hfew : (getlines '|' line).length < 5) :
    (∀ result, txtStep type result line = some result)
      ∧ TXTParser.parse ((before.flatMap fun l => l ++ ['\n']) ++ (line ++ '\n' :: rest)) type
          = TXTParser.parse ((before.flatMap fun l => l ++ ['\n']) ++ rest) type
      ∧ TXTParser.parse ((before.flatMap fun l => l ++ ['\n']) ++ line) type
          = TXTParser.parse (before.flatMap fun l => l ++ ['\n']) type
      ∧ (getlines '|' "a|b|c|d|".toList).length = 4
      ∧ (getlines '|' "2024-01-01 | INFO | msg | UserID: 1".toList).length = 4 := by
  refine ⟨fun result => txtStep_short _ _ _ hfew, ?_, ?_, by decide, by decide⟩
  · unfold TXTParser.parse
    rw [getlines_lines_append _ _ _ hbefore, getlines_lines_append _ _ _ hbefore,
      getlines_line_append _ _ _ hline, List.foldlM_append, List.foldlM_append]
    congr 1
    funext t
    rw [List.foldlM_cons, txtStep_short _ _ _ hfew]
    rfl
  · unfold TXTParser.parse
    have h0 := getlines_lines_append '\n' before [] hbefore
    rw [List.append_nil] at h0
    rw [getlines_lines_append _ _ _ hbefore, h0, getlines_single _ _ hline,
      List.foldlM_append]
    simp only [getlines, List.append_nil]
    by_cases hl : line = []
    · simp [hl]
    · simp only [hl, if_false, List.foldlM_cons, txtStep_short _ _ _ hfew, List.foldlM_nil]
      cases List.foldlM (txtStep type) [] before <;> rfl

theorem txt_short_line_skipped_witness :
    TXTParser.parse
        ((["2024-09-30 22:51:48 | INFO | m | UserID: 2421 | IP: 84.126.98.62".toList].flatMap
            fun l => l ++ ['\n']) ++ ("a|b|c|d|".toList ++ '\n' :: "x | WARN | m | u:1 | i:2".toList))
        .BY_LOG_LEVEL
      = TXTParser.parse
          ((["2024-09-30 22:51:48 | INFO | m | UserID: 2421 | IP: 84.126.98.62".toList].flatMap
              fun l => l ++ ['\n']) ++ "x | WARN | m | u:1 | i:2".toList)
          .BY_LOG_LEVEL :=
  (txt_short_line_skipped .BY_LOG_LEVEL
    ["2024-09-30 22:51:48 | INFO | m | UserID: 2421 | IP: 84.126.98.62".toList]
    "a|b|c|d|".toList "x | WARN | m | u:1 | i:2".toList (by decide) (by decide)
    (by decide)).2.1

theorem ffno_of_all (set x : Str) (h : ∀ c ∈ x, set.contains c = true) :
    find_first_not_of set x = none := by
  induction x with
  | nil => rfl
  | cons a as ih =>
    rw [find_first_not_of, if_pos (h a (List.mem_cons_self _ _)),
      ih fun c hc => h c (List.mem_cons_of_mem _ hc)]
    rfl

/-- C19. A body that is empty or made only of spaces, tabs, carriage returns and newlines is
classified as TXT; for every analysis type and every pair of bounds the parser returns the
empty table on the filtered body, and the session answers with the line for an empty
table. -/
theorem blank_body (parseJson : Str → Option Json) (dump : Json → Str)
    (header body fromDate toDate : Str) (type : AnalysisType)
    (hblank : ∀ c ∈ body, c ∈ " \t\r\n".toList) :
    detectFileType body = .TXT
      ∧ TXTParser.parse (filterTxtByDate body fromDate toDate) type = some []
      ∧ ∃ filtered, serve parseJson dump header body
          = [.detect body, .filter .TXT body, .parse .TXT filtered, .send noMatchLine,
              .close] := by
  have hdet : detectFileType body = .TXT := by
    unfold detectFileType
    rw [ffno_of_all _ _ fun c hc => by simpa using hblank c hc]
  have hparse : ∀ f t ty, TXTParser.parse (filterTxtByDate body f t) ty = some [] := by
    intro f t ty
    unfold TXTParser.parse
    rw [filterTxt_getlines, getlines_flatMap]
    · apply txtFold_short
      intro l hl
      have hl2 := List.mem_of_mem_filter hl
      have hbar : '|' ∉ l := by
        intro hmem
        have := hblank _ (getlines_chars _ _ l hl2 _ hmem)
        revert this
        decide
      rw [getlines_single _ _ hbar]
      by_cases hnil : l = []
      · simp [hnil]
      · simp [hnil]
    · intro l hl
      exact getlines_not_mem '\n' body l (List.mem_of_mem_filter hl)
  refine ⟨hdet, hparse _ _ _, ?_⟩
  unfold serve
  rw [parseHeader_eq]
  simp only [hdet, filterBody, parseBody, hparse]
  exact ⟨_, rfl⟩

theorem blank_body_witness :
    detectFileType " \r\n\t\n            \n".toList = .TXT
      ∧ TXTParser.parse (filterTxtByDate " \r\n\t\n            \n".toList [] []) .BY_USER
          = some []
      ∧ ∃ filtered, serve (fun _ => none) dumpCount "TYPE:USER".toList
          " \r\n\t\n            \n".toList
          = [.detect " \r\n\t\n            \n".toList,
              .filter .TXT " \r\n\t\n            \n".toList, .parse .TXT filtered,
              .send noMatchLine, .close] :=
  blank_body (fun _ => none) dumpCount "TYPE:USER".toList " \r\n\t\n            \n".toList
    [] [] .BY_USER (by decide)

theorem rdropWhile_decomp (p : Char → Bool) (y : Str) :
    ∃ b, y = y.rdropWhile p ++ b ∧ ∀ c ∈ b, p c = true := by
  induction y using List.reverseRecOn with
  | nil => exact ⟨[], rfl, fun c hc => by cases hc⟩
  | append_singleton ys z ih =>
    by_cases hz : p z = true
    · obtain ⟨b, hb, hall⟩ := ih
      refine ⟨b ++ [z], ?_, ?_⟩
      · rw [List.rdropWhile_concat_pos _ _ _ hz, ← List.append_assoc, ← hb]
      · intro c hc
        rcases List.mem_append.1 hc with hc | hc
        · exact hall c hc
        · rw [List.mem_singleton.1 hc]; exact hz
    · exact ⟨[], by rw [List.rdropWhile_concat_neg _ _ _ hz, List.append_nil],
        fun c hc => by cases hc⟩

theorem strip_rdropWhile (small big y : Str)
    (h : ∀ c, small.contains c = true → big.contains c = true) :
    strip big (y.rdropWhile small.contains) = strip big y := by
  obtain ⟨b, hb, hall⟩ := rdropWhile_decomp small.contains y
  obtain ⟨a2, b2, hm, ha2, hb2, h1, h2⟩ := strip_decomp big (y.rdropWhile small.contains)
  have hy : y = a2 ++ strip big (y.rdropWhile small.contains) ++ (b2 ++ b) := by
    conv_lhs => rw [hb, hm]
    simp only [List.append_assoc]
  conv_rhs => rw [hy]
  rw [strip_eq_of_decomp big _ _ _ ha2 ?_ (Or.inr ⟨h1, h2⟩)]
  intro c hc
  rcases List.mem_append.1 hc with hc | hc
  · exact hb2 c hc
  · exact h c (hall c hc)

theorem afterColon_append_left (set a y : Str) (hset : set.contains ':' = false)
    (ha : ∀ c ∈ a, set.contains c = true) : afterColon (a ++ y) = afterColon y := by
  unfold afterColon
  rw [dropWhile_append_all]
  intro c hc
  have h1 := ha c hc
  simp only [bne_iff_ne, ne_eq]
  intro hcc
  rw [hcc, hset] at h1
  cases h1

/-- The text after the first colon of a stripped field is the text after the first colon of
the field without its trailing characters of the set. -/
theorem afterColon_strip (set p : Str) (hset : set.contains ':' = false) :
    afterColon (strip set p) = (afterColon p).rdropWhile set.contains := by
  obtain ⟨a, b, hp, ha, hb, h1, h2⟩ := strip_decomp set p
  generalize strip set p = m at hp h1 h2 ⊢
  have hpa : afterColon p = afterColon (m ++ b) := by
    rw [hp, List.append_assoc, afterColon_append_left set a _ hset ha]
  rw [hpa]
  have hbq : ∀ c ∈ b, (fun c => c != ':') c = true := by
    intro c hc
    have h3 := hb c hc
    simp only [bne_iff_ne, ne_eq]
    intro hcc
    rw [hcc, hset] at h3
    cases h3
  by_cases hm : m.dropWhile (fun c => c != ':') = []
  · have hmb : (m ++ b).dropWhile (fun c => c != ':') = [] := by
      rw [List.dropWhile_eq_nil_iff] at hm ⊢
      intro c hc
      rcases List.mem_append.1 hc with hc | hc
      · exact hm c hc
      · exact hbq c hc
    unfold afterColon
    rw [hm, hmb]
    rfl
  · have hmb : (m ++ b).dropWhile (fun c => c != ':') = m.dropWhile (fun c => c != ':') ++ b := by
      rw [List.dropWhile_append]
      have : (m.dropWhile (fun c => c != ':')).isEmpty = false := by
        cases hq : m.dropWhile (fun c => c != ':') with
        | nil => exact absurd hq hm
        | cons _ _ => rfl
      simp [this]
    unfold afterColon
    rw [hmb]
    cases hq : m.dropWhile (fun c => c != ':') with
    | nil => exact absurd hq hm
    | cons c v =>
      simp only [List.cons_append, List.drop_succ_cons, List.drop_zero]
      rw [rdropWhile_append_all _ _ _ hb]
      symm
      rw [List.rdropWhile_eq_self_iff]
      intro hv
      have hsuf : (c :: v) <:+ m := hq ▸ List.dropWhile_suffix _
      obtain ⟨t, ht⟩ := hsuf
      have hmne : m ≠ [] := by
        intro h; rw [h] at ht; simp at ht
      have hlast : m.getLast hmne = v.getLast hv := by
        have e : m = (t ++ [c]) ++ v := by rw [← ht]; simp
        simp only [e]
        exact List.getLast_append_of_ne_nil hv
      rw [← hlast]
      exact List.rdropWhile_eq_self_iff.1 h2 hmne

theorem getD_map_strip (set : Str) (l : List Str) (i : Nat) :
    (l.map (strip set)).getD i [] = strip set (l.getD i []) := by
  induction l generalizing i with
  | nil => simp [strip]
  | cons a as ih =>
    cases i with
    | zero => rfl
    | succ i => simpa using ih i

theorem blanks_subset : ∀ c, " \t".toList.contains c = true → " \t\r\n".toList.contains c = true := by
  intro c hc
  simp only [String.toList, List.contains_cons, List.contains_nil, Bool.or_false,
    Bool.or_eq_true, beq_iff_eq] at hc ⊢
  rcases hc with h | h
  · exact Or.inl h
  · exact Or.inr (Or.inl h)

/-- The key the parser computes before its final trim, stripped of spaces, tabs, carriage
returns and newlines, is the stripped key source of the untrimmed fields. -/
theorem txtKey_eq (type : AnalysisType) (pieces : List Str)
    (hkey : strip " \t\r\n".toList (keySource type pieces) ≠ []) :
    txtKey type (pieces.map (strip " \t".toList))
      = some (strip " \t\r\n".toList (keySource type pieces)) := by
  have hlevel : strip " \t\r\n".toList ((pieces.map (strip " \t".toList)).getD 1 [])
      = strip " \t\r\n".toList (keySource .BY_LOG_LEVEL pieces) := by
    rw [getD_map_strip, strip_strip _ _ _ blanks_subset]
    rfl
  have hfield : ∀ i, strip " \t\r\n".toList
      (strip " \t".toList (afterColon ((pieces.map (strip " \t".toList)).getD i [])))
      = strip " \t\r\n".toList (afterColon (pieces.getD i [])) := by
    intro i
    rw [getD_map_strip, strip_strip _ _ _ blanks_subset, afterColon_strip _ _ (by decide),
      strip_rdropWhile _ _ _ blanks_subset]
  unfold txtKey
  simp only [extractValue_eq, Option.bind_eq_bind, Option.some_bind]
  cases type with
  | BY_USER =>
    simp only
    have h3 := hfield 3
    rw [trimKey_eq _ (by rw [h3]; exact hkey), h3]
    rfl
  | BY_IP =>
    simp only
    have h4 := hfield 4
    rw [trimKey_eq _ (by rw [h4]; exact hkey), h4]
    rfl
  | BY_LOG_LEVEL =>
    simp only
    rw [trimKey_eq _ (by rw [hlevel]; exact hkey), hlevel]

/-- C16 (the claim as stated fails). The line `t|\rINFO|m|UserID: 1|IP: 2` has five fields;
its second field with surrounding spaces and tabs removed is `\rINFO`, yet grouped by log
level the line is counted under `INFO`: the final trim of the key also removes carriage
returns and newlines. -/
theorem txt_key_drops_carriage_return :
    (getlines '|' "t|\rINFO|m|UserID: 1|IP: 2".toList).length = 5
      ∧ statedKey .BY_LOG_LEVEL (getlines '|' "t|\rINFO|m|UserID: 1|IP: 2".toList)
          = "\rINFO".toList
      ∧ TXTParser.parse "t|\rINFO|m|UserID: 1|IP: 2".toList .BY_LOG_LEVEL
          = some [("INFO".toList, 1)]
      ∧ TXTParser.parse "t|\rINFO|m|UserID: 1|IP: 2".toList .BY_LOG_LEVEL
          ≠ some [(statedKey .BY_LOG_LEVEL (getlines '|' "t|\rINFO|m|UserID: 1|IP: 2".toList),
              1)] := by
  decide

/-- C16 (amended). For a line with at least five `|`-delimited fields, let `k` be, with
surrounding spaces, tabs, carriage returns and newlines removed, the second field (grouping
by log level) or the text after the first `':'` of the fourth (by user) or fifth (by IP)
field. When `k` is not empty, `TXTParser::parse` counts the line under `k`. The line
`2024-09-30 22:51:48 | INFO | m | UserID: 2421 | IP: 84.126.98.62` gives `INFO`, `2421` and
`84.126.98.62`. -/
theorem txt_key_spec (type : AnalysisType) (result : CountTable) (line : Str)
    (hfields : 5 ≤ (getlines '|' line).length)
    (hkey : strip " \t\r\n".toList (keySource type (getlines '|' line)) ≠ []) :
    txtStep type result line
        = some (increment (strip " \t\r\n".toList (keySource type (getlines '|' line))) result)
      ∧ TXTParser.parse
          "2024-09-30 22:51:48 | INFO | m | UserID: 2421 | IP: 84.126.98.62".toList
          .BY_LOG_LEVEL = some [("INFO".toList, 1)]
      ∧ TXTParser.parse
          "2024-09-30 22:51:48 | INFO | m | UserID: 2421 | IP: 84.126.98.62".toList
          .BY_USER = some [("2421".toList, 1)]
      ∧ TXTParser.parse
          "2024-09-30 22:51:48 | INFO | m | UserID: 2421 | IP: 84.126.98.62".toList
          .BY_IP = some [("84.126.98.62".toList, 1)] := by
  refine ⟨?_, by decide, by decide, by decide⟩
  have hne : line.isEmpty = false := by
    cases line with
    | nil => simp [getlines] at hfields
    | cons c cs => rfl
  have hlen : ¬ (getlines '|' line).length < 5 := by omega
  unfold txtStep
  simp only [hne, Bool.false_eq_true, if_false, splitParts_eq, Option.bind_eq_bind,
    Option.some_bind, List.length_map, hlen, txtKey_eq type _ hkey]

theorem txt_key_spec_witness :
    txtStep .BY_IP [] "t | INFO | m | UserID: 7 | IP:\t10.0.0.1 \r".toList
      = some [("10.0.0.1".toList, 1)] :=
  ((txt_key_spec .BY_IP [] "t | INFO | m | UserID: 7 | IP:\t10.0.0.1 \r".toList
    (by decide) (by decide)).1).trans (by decide)

theorem getTagValue_eq (s tag : Str) : getTagValue s tag = some (referenceTagText tag s) := by
  unfold getTagValue referenceTagText
  simp only
  cases h1 : find ("<".toList ++ tag ++ ">".toList) s with
  | none => rfl
  | some p1 =>
    simp only
    obtain ⟨a1, a2, _⟩ := (find_some_iff _ _ _).1 h1
    have hle : p1 + ("<".toList ++ tag ++ ">".toList).length ≤ s.length := by
      have := a1.length_le
      simp only [List.length_drop] at this
      omega
    have hn : ¬ s.length < p1 + ("<".toList ++ tag ++ ">".toList).length := by omega
    unfold findFrom
    simp only [hn, if_false]
    cases h2 : find ("</".toList ++ tag ++ ">".toList)
        (s.drop (p1 + ("<".toList ++ tag ++ ">".toList).length)) with
    | none => rfl
    | some q =>
      simp only [Option.map_some']
      rw [sizeSub_of_le _ _ (by omega), substr_of_le _ _ _ hle]
      simp

/-- In one scan step the closing tag starts at least five characters after the opening
tag. -/
theorem span_gap (s : Str) (start stop : Nat) (h1 : "<log>".toList <+: s.drop start)
    (h2 : "</log>".toList <+: s.drop stop) (h3 : start ≤ stop) : start + 5 ≤ stop := by
  by_contra hlt
  obtain ⟨t, ht⟩ := h1
  obtain ⟨u, hu⟩ := h2
  have hs : s.drop stop = (s.drop start).drop (stop - start) := by
    rw [List.drop_drop]
    congr 1
    omega
  rw [hs, ← ht] at hu
  have hd : stop - start < 5 := by omega
  generalize stop - start = d at hu hd
  have e1 : "<log>".toList = ['<', 'l', 'o', 'g', '>'] := rfl
  have e2 : "</log>".toList = ['<', '/', 'l', 'o', 'g', '>'] := rfl
  rw [e1, e2] at hu
  interval_cases d <;> simp at hu

theorem entry_facts (s : Str) (pos start stop : Nat)
    (h1 : findFrom "<log>".toList s pos = some start)
    (h2 : findFrom "</log>".toList s start = some stop) :
    start + 5 ≤ stop
      ∧ substr s (start + 5) (sizeSub stop (start + 5)) = some (entryAt s (start, stop)) := by
  obtain ⟨_, _, a3, _⟩ := findFrom_some _ _ _ _ h1
  obtain ⟨b1, b2, b3, _⟩ := findFrom_some _ _ _ _ h2
  have hgap := span_gap s start stop a3 b3 b1
  refine ⟨hgap, ?_⟩
  rw [sizeSub_of_le _ _ hgap, substr_of_le _ _ _ (by omega)]
  rfl

theorem xmlKey_eq (type : AnalysisType) (entry : Str) :
    xmlKey type entry = some (referenceTagText (selectedTag type) entry) := by
  unfold xmlKey
  simp only [getTagValue_eq, Option.bind_eq_bind, Option.some_bind]
  cases type <;> rfl

theorem xmlParseLoop_eq (type : AnalysisType) (s : Str) :
    ∀ fuel pos result, pos ≤ s.length → s.length < fuel + pos →
      xmlParseLoop type s fuel pos result
        = some (((xmlSpans s fuel pos).map (entryAt s)).foldl (referenceCount type) result) := by
  intro fuel
  induction fuel with
  | zero => intro pos result h1 h2; omega
  | succ fuel ih =>
    intro pos result h1 h2
    unfold xmlParseLoop xmlSpans
    cases hs : findFrom "<log>".toList s pos with
    | none => rfl
    | some start =>
      simp only
      cases he : findFrom "</log>".toList s start with
      | none => rfl
      | some stop =>
        obtain ⟨a1, a2, a3, _, _⟩ := span_facts s pos start stop hs he
        obtain ⟨_, hsub⟩ := entry_facts s pos start stop hs he
        simp only [hsub, xmlKey_eq, Option.bind_eq_bind, Option.some_bind]
        rw [ih (stop + 6) _ a3 (by omega)]
        simp only [List.map_cons, List.foldl_cons, referenceCount]
        by_cases hk : referenceTagText (selectedTag type) (entryAt s (start, stop)) = []
        · simp [hk]
        · have : (referenceTagText (selectedTag type) (entryAt s (start, stop))).isEmpty
              = false := by
            cases hr : referenceTagText (selectedTag type) (entryAt s (start, stop)) with
            | nil => exact absurd hr hk
            | cons _ _ => rfl
          simp [hk, this]

theorem xmlSpans_reference (s : Str) :
    ∀ fuel pos, pos ≤ s.length →
      (xmlSpans s fuel pos).map (entryAt s) = referenceEntries fuel (s.drop pos) := by
  intro fuel
  induction fuel with
  | zero => intro pos _; rfl
  | succ fuel ih =>
    intro pos hpos
    unfold xmlSpans referenceEntries
    have hn : ¬ s.length < pos := by omega
    have hf1 : findFrom "<log>".toList s pos
        = (find "<log>".toList (s.drop pos)).map (· + pos) := by
      simp [findFrom, hn]
    rw [hf1]
    cases h1 : find "<log>".toList (s.drop pos) with
    | none => rfl
    | some i =>
      simp only [Option.map_some']
      obtain ⟨a1, a2, _⟩ := (find_some_iff _ _ _).1 h1
      simp only [List.length_drop] at a2
      have hn2 : ¬ s.length < i + pos := by omega
      have hdrop : s.drop (i + pos) = (s.drop pos).drop i := by
        rw [List.drop_drop, Nat.add_comm]
      have hf2 : findFrom "</log>".toList s (i + pos)
          = (find "</log>".toList ((s.drop pos).drop i)).map (· + (i + pos)) := by
        simp [findFrom, hn2, hdrop]
      rw [hf2]
      cases h2 : find "</log>".toList ((s.drop pos).drop i) with
      | none => rfl
      | some j =>
        simp only [Option.map_some', List.map_cons]
        obtain ⟨b1, b2, _⟩ := (find_some_iff _ _ _).1 h2
        have hlen : j + 6 ≤ ((s.drop pos).drop i).length := by
          have := b1.length_le
          simp only [List.length_drop] at this ⊢
          have h6 : ("</log>".toList).length = 6 := rfl
          omega
        simp only [List.length_drop] at hlen
        rw [ih (j + (i + pos) + 6) (by omega)]
        congr 1
        · unfold entryAt
          simp only
          rw [List.drop_take, ← hdrop, List.drop_drop]
          congr 1
          omega
        · rw [← hdrop, List.drop_drop]
          congr 2
          omega

/-- C20. On every payload and for every analysis type, `XMLParser::parse` returns a table,
and it is the table of the reference scan: entries taken from each `<log>` to the first
`</log>` at or after it, the scan resuming after that `</log>` and stopping when a search
fails; each entry counted once under the inner text of the first selected tag, and not
counted when that text is empty or the open or close tag is absent. In the example, grouped
by user, the first block counts for `7`; the blocks with an empty, an unclosed and no
`<user_id>` count for nothing; the last `<log>` has no `</log>` and ends the scan. -/
theorem xml_parse_reference (dataStr : Str) (type : AnalysisType) :
    XMLParser.parse dataStr type = some (referenceParse dataStr type)
      ∧ referenceParse
          ("<log><user_id>7</user_id></log><log><user_id></user_id></log>".toList
            ++ "<log><user_id>8</log><log>x</log><log><user_id>7".toList)
          .BY_USER = [("7".toList, 1)] := by
  refine ⟨?_, by decide⟩
  unfold XMLParser.parse referenceParse
  rw [xmlParseLoop_eq _ _ _ _ _ (Nat.zero_le _) (by omega),
    xmlSpans_reference _ _ _ (Nat.zero_le _)]
  rfl

theorem total_referenceFold (type : AnalysisType) (entries : List Str) (table : CountTable) :
    total (entries.foldl (referenceCount type) table)
      = total table
        + entries.countP fun e => !decide (referenceTagText (selectedTag type) e = []) := by
  induction entries generalizing table with
  | nil => rfl
  | cons e es ih =>
    rw [List.foldl_cons, ih, List.countP_cons]
    unfold referenceCount
    by_cases hk : referenceTagText (selectedTag type) e = []
    · simp [hk]
    · simp only [hk, if_false, total_increment, decide_False, Bool.not_false, if_true]
      omega

theorem countP_empty_split (f : Str → Str) (l : List Str) :
    l.countP (fun e => decide (f e = [])) + l.countP (fun e => !decide (f e = []))
      = l.length := by
  induction l with
  | nil => rfl
  | cons a as ih =>
    rw [List.countP_cons, List.countP_cons, List.length_cons]
    by_cases h : f a = []
    · simp only [h, decide_True, if_true, Bool.not_true, Bool.false_eq_true, if_false]
      omega
    · simp only [h, decide_False, Bool.false_eq_true, if_false, Bool.not_false, if_true]
      omega

theorem xmlParse_entries (dataStr : Str) (type : AnalysisType) :
    XMLParser.parse dataStr type
      = some ((xmlEntries dataStr).foldl (referenceCount type) []) := by
  unfold XMLParser.parse xmlEntries
  exact xmlParseLoop_eq _ _ _ _ _ (Nat.zero_le _) (by omega)

/-- C17 (the claim as stated fails). The payload `<log><ip_address></ip_address></log>` has
one block and no block lacks `<ip_address>`, yet grouped by IP the counts sum to 0, not to 1:
a block whose `<ip_address>` is empty is not counted either. -/
theorem xml_empty_ip_not_counted :
    xmlBlocks "<log><ip_address></ip_address></log>".toList
        = ["<log><ip_address></ip_address></log>".toList]
      ∧ xmlEntries "<log><ip_address></ip_address></log>".toList
          = ["<ip_address></ip_address>".toList]
      ∧ (xmlEntries "<log><ip_address></ip_address></log>".toList).countP
          (lacksTag "ip_address".toList) = 0
      ∧ XMLParser.parse "<log><ip_address></ip_address></log>".toList .BY_IP = some []
      ∧ total [] ≠ (xmlBlocks "<log><ip_address></ip_address></log>".toList).length
          - (xmlEntries "<log><ip_address></ip_address></log>".toList).countP
              (lacksTag "ip_address".toList) := by
  decide

/-- C17 (amended). On every payload, with `M` the number of `<log>...</log>` blocks the scan
finds, `XMLParser::parse` grouped by IP returns a table whose counts sum to `M` minus the
number of blocks whose `<ip_address>` text is empty, which is the case when the open tag is
absent, when the close tag is absent after it, and when nothing stands between them; in
particular the sum is at most `M`. -/
theorem xml_parse_ip_total (dataStr : Str) :
    ∃ t, XMLParser.parse dataStr .BY_IP = some t
      ∧ total t = (xmlBlocks dataStr).length
          - (xmlEntries dataStr).countP
              (fun e => decide (referenceTagText "ip_address".toList e = []))
      ∧ total t ≤ (xmlBlocks dataStr).length
      ∧ (∀ e, lacksTag "ip_address".toList e = true →
          referenceTagText "ip_address".toList e = [])
      ∧ (∀ e p, find "<ip_address>".toList e = some p →
          find "</ip_address>".toList (e.drop (p + 12)) = none →
          referenceTagText "ip_address".toList e = []) := by
  have hlen : (xmlBlocks dataStr).length = (xmlEntries dataStr).length := by
    simp [xmlBlocks, xmlEntries]
  have hsplit := countP_empty_split (referenceTagText "ip_address".toList) (xmlEntries dataStr)
  have htot := total_referenceFold .BY_IP (xmlEntries dataStr) []
  have hsel : selectedTag .BY_IP = "ip_address".toList := rfl
  rw [hsel] at htot
  have h0 : total ([] : CountTable) = 0 := rfl
  refine ⟨_, xmlParse_entries dataStr .BY_IP, ?_, ?_, ?_, ?_⟩
  · rw [htot, h0, hlen]
    omega
  · rw [htot, h0, hlen]
    omega
  · intro e he
    unfold lacksTag at he
    unfold referenceTagText
    cases hf : find ("<".toList ++ "ip_address".toList ++ ">".toList) e with
    | none => rfl
    | some p => rw [hf] at he; cases he
  · intro e p hp hc
    have ho : "<".toList ++ "ip_address".toList ++ ">".toList = "<ip_address>".toList := rfl
    have hcl : "</".toList ++ "ip_address".toList ++ ">".toList = "</ip_address>".toList := rfl
    have hl : ("<ip_address>".toList).length = 12 := rfl
    unfold referenceTagText
    simp only [ho, hcl, hp, hl, hc]

theorem find_blank_skip (l rest : Str) (hl : '\n' ∉ l) :
    find "\n\n".toList (l ++ rest) = (find "\n\n".toList rest).map (· + l.length) := by
  induction l with
  | nil => simp
  | cons c cs ih =>
    simp only [List.mem_cons, not_or] at hl
    have hc : ('\n' == c) = false := by
      simp only [beq_eq_false_iff_ne, ne_eq]
      exact hl.1
    have hs : startsWith "\n\n".toList (c :: (cs ++ rest)) = false := by
      simp [startsWith, String.toList, List.isPrefixOf, hc]
    rw [List.cons_append, find, hs, ih hl.2]
    simp only [Bool.false_eq_true, if_false, Option.map_map, List.length_cons]
    cases find "\n\n".toList rest with
    | none => rfl
    | some n =>
      simp only [Option.map_some', Function.comp_apply, Option.some.injEq]
      omega

theorem find_blank_newline (c : Char) (rest : Str) (hc : c ≠ '\n') :
    find "\n\n".toList ('\n' :: c :: rest)
      = (find "\n\n".toList (c :: rest)).map (· + 1) := by
  have hb : ('\n' == c) = false := by
    simp only [beq_eq_false_iff_ne, ne_eq]
    exact fun h => hc h.symm
  have hs : startsWith "\n\n".toList ('\n' :: c :: rest) = false := by
    simp [startsWith, String.toList, List.isPrefixOf, hb]
  rw [find, hs]
  simp

/-- Lines that are not empty and hold no newline, each followed by a newline, form a header
followed by a newline; the header splits back into the lines, and in the header followed by a
blank line the first blank line is the one after the header. -/
theorem wire_lines (lines : List Str) (hne : lines ≠ [])
    (hl : ∀ l ∈ lines, l ≠ [] ∧ '\n' ∉ l) (content : Str) :
    ∃ header, (lines.flatMap fun l => l ++ ['\n']) = header ++ ['\n']
      ∧ getlines '\n' header = lines
      ∧ find "\n\n".toList (header ++ '\n' :: '\n' :: content) = some header.length
      ∧ ∃ c cs, header = c :: cs ∧ c ≠ '\n' := by
  induction lines with
  | nil => exact absurd rfl hne
  | cons l rest ih =>
    obtain ⟨hl1, hl2⟩ := hl l (List.mem_cons_self _ _)
    have hhead : ∃ c cs, l = c :: cs ∧ c ≠ '\n' := by
      cases l with
      | nil => exact absurd rfl hl1
      | cons c cs =>
        simp only [List.mem_cons, not_or] at hl2
        exact ⟨c, cs, rfl, fun h => hl2.1 h.symm⟩
    by_cases hr : rest = []
    · subst hr
      refine ⟨l, by simp, ?_, ?_, hhead⟩
      · rw [getlines_single _ _ hl2, if_neg hl1]
      · rw [find_blank_skip _ _ hl2]
        have : find "\n\n".toList ('\n' :: '\n' :: content) = some 0 := by
          simp [find, startsWith, String.toList, List.isPrefixOf]
        rw [this]
        simp
    · obtain ⟨header, h1, h2, h3, c, cs, h4, h5⟩ :=
        ih hr fun l1 hl1 => hl l1 (List.mem_cons_of_mem _ hl1)
      refine ⟨l ++ '\n' :: header, ?_, ?_, ?_, ?_⟩
      · rw [List.flatMap_cons, h1]
        simp
      · rw [getlines_line_append _ _ _ hl2, h2]
      · rw [List.append_assoc, find_blank_skip _ _ hl2, List.cons_append, h4, List.cons_append,
          find_blank_newline _ _ h5, ← List.cons_append, ← h4, h3]
        simp only [Option.map_some', List.length_append, List.length_cons, Option.some.injEq]
        omega
      · obtain ⟨c1, cs1, e1, e2⟩ := hhead
        exact ⟨c1, cs1 ++ '\n' :: header, by rw [e1]; rfl, e2⟩

theorem splitHeaderBody_framed (header content : Str) (hne : header ≠ [])
    (hfind : find "\n\n".toList (header ++ '\n' :: '\n' :: content) = some header.length) :
    splitHeaderBody (header ++ '\n' :: '\n' :: content) = .framed header content := by
  unfold splitHeaderBody
  have he : (header ++ '\n' :: '\n' :: content).isEmpty = false := by
    cases header with
    | nil => exact absurd rfl hne
    | cons c cs => rfl
  have hn : ¬ (header ++ '\n' :: '\n' :: content).length < header.length + 2 := by
    simp only [List.length_append, List.length_cons]
    omega
  have hd : (header ++ '\n' :: '\n' :: content).drop (header.length + 2) = content := by
    rw [← List.drop_drop, List.drop_left]
    rfl
  simp only [he, Bool.false_eq_true, if_false, hfind, substr, substrFrom, hn, Nat.not_lt_zero,
    List.drop_zero, List.take_left, hd]

theorem directive_own (pre value cur : Str) :
    directiveValue pre [pre ++ value] cur = value := by
  rw [directiveValue_single]
  have : startsWith pre (pre ++ value) = true :=
    (startsWith_iff _ _).2 (List.prefix_append _ _)
  rw [if_pos this, List.drop_left]

theorem directive_other (pre other value cur : Str) (h1 : startsWith pre other = false)
    (h2 : startsWith other pre = false) :
    directiveValue pre [other ++ value] cur = cur := by
  rw [directiveValue_single]
  have : startsWith pre (other ++ value) = false :=
    startsWith_excl other pre _ ((startsWith_iff _ _).2 (List.prefix_append _ _)) h1 h2
  rw [this]
  simp

theorem directiveValue_cons2 (pre l1 l2 : Str) (ls : List Str) (cur : Str) :
    directiveValue pre (l1 :: l2 :: ls) cur
      = directiveValue pre (l2 :: ls) (directiveValue pre [l1] cur) :=
  directiveValue_cons pre l1 (l2 :: ls) cur

theorem headerLines_values (analysis fromDate toDate : Str) :
    (("TYPE:".toList ++ analysis)
        :: ((if fromDate = [] then [] else ["FROM:".toList ++ fromDate])
          ++ (if toDate = [] then [] else ["TO:".toList ++ toDate]))).foldlM headerStep
        { analysisStr := [], fromDate := [], toDate := [] }
      = some { analysisStr := analysis, fromDate := fromDate, toDate := toDate } := by
  have tf : startsWith "TYPE:".toList "FROM:".toList = false := by decide
  have ft : startsWith "FROM:".toList "TYPE:".toList = false := by decide
  have tt : startsWith "TYPE:".toList "TO:".toList = false := by decide
  have tt2 : startsWith "TO:".toList "TYPE:".toList = false := by decide
  have fo : startsWith "FROM:".toList "TO:".toList = false := by decide
  have fo2 : startsWith "TO:".toList "FROM:".toList = false := by decide
  rw [headerFold_eq]
  by_cases hf : fromDate = [] <;> by_cases ht : toDate = []
  · subst hf; subst ht
    simp only [if_true, List.append_nil, directive_own,
      directive_other _ _ _ _ ft tf, directive_other _ _ _ _ tt2 tt]
  · subst hf
    simp only [if_true, if_neg ht, List.nil_append, directiveValue_cons2,
      directive_own, directive_other _ _ _ _ ft tf, directive_other _ _ _ _ tt2 tt,
      directive_other _ _ _ _ tt tt2, directive_other _ _ _ _ fo fo2]
  · subst ht
    simp only [if_true, if_neg hf, List.append_nil, directiveValue_cons2,
      directive_own, directive_other _ _ _ _ ft tf, directive_other _ _ _ _ tt2 tt,
      directive_other _ _ _ _ tf ft, directive_other _ _ _ _ fo2 fo]
  · simp only [if_neg hf, if_neg ht, List.singleton_append, directiveValue_cons2,
      directive_own, directive_other _ _ _ _ ft tf,
      directive_other _ _ _ _ tt2 tt, directive_other _ _ _ _ tf ft,
      directive_other _ _ _ _ fo2 fo, directive_other _ _ _ _ tt tt2,
      directive_other _ _ _ _ fo fo2]

theorem buildPayload_lines (analysis fromDate toDate content : Str) :
    buildPayload analysis fromDate toDate content
      = ((("TYPE:".toList ++ analysis)
          :: ((if fromDate = [] then [] else ["FROM:".toList ++ fromDate])
            ++ (if toDate = [] then [] else ["TO:".toList ++ toDate]))).flatMap
          fun l => l ++ ['\n']) ++ '\n' :: content := by
  unfold buildPayload
  by_cases hf : fromDate = [] <;> by_cases ht : toDate = []
  · subst hf; subst ht
    simp [String.toList]
  · subst hf
    have : toDate.isEmpty = false := by
      cases toDate with
      | nil => exact absurd rfl ht
      | cons _ _ => rfl
    simp [String.toList, this, ht]
  · subst ht
    have : fromDate.isEmpty = false := by
      cases fromDate with
      | nil => exact absurd rfl hf
      | cons _ _ => rfl
    simp [String.toList, this, hf]
  · have h1 : fromDate.isEmpty = false := by
      cases fromDate with
      | nil => exact absurd rfl hf
      | cons _ _ => rfl
    have h2 : toDate.isEmpty = false := by
      cases toDate with
      | nil => exact absurd rfl ht
      | cons _ _ => rfl
    simp [String.toList, h1, h2, hf, ht]

/-- C21. For an analysis string and dates without newline and any file content, the server
frames the payload the client builds into a header and a body that is exactly the file
content, and reads from the header the `TYPE` value, the `FROM` value and the `TO` value the
client wrote, an empty date giving the empty value; the session then runs on that header and
body. The content may start with a newline or contain blank lines. -/
theorem wire_round_trip (analysis fromDate toDate content : Str)
    (ha : '\n' ∉ analysis) (hf : '\n' ∉ fromDate) (ht : '\n' ∉ toDate) :
    ∃ header, splitHeaderBody (buildPayload analysis fromDate toDate content)
          = .framed header content
      ∧ parseHeader header
          = some { analysisStr := analysis, fromDate := fromDate, toDate := toDate }
      ∧ ∀ (parseJson : Str → Option Json) (dump : Json → Str),
          handleClient parseJson dump (buildPayload analysis fromDate toDate content)
            = serve parseJson dump header content := by
  have hlines : ∀ l ∈ (("TYPE:".toList ++ analysis)
      :: ((if fromDate = [] then [] else ["FROM:".toList ++ fromDate])
        ++ (if toDate = [] then [] else ["TO:".toList ++ toDate]))),
      l ≠ [] ∧ '\n' ∉ l := by
    intro l hl
    simp only [List.mem_cons, List.mem_append] at hl
    rcases hl with rfl | hl | hl
    · refine ⟨by simp [String.toList], ?_⟩
      intro hm
      rcases List.mem_append.1 hm with h | h
      · revert h; decide
      · exact ha h
    · by_cases h0 : fromDate = []
      · simp [h0] at hl
      · simp only [h0, if_false, List.mem_singleton] at hl
        subst hl
        refine ⟨by simp [String.toList], ?_⟩
        intro hm
        rcases List.mem_append.1 hm with h | h
        · revert h; decide
        · exact hf h
    · by_cases h0 : toDate = []
      · simp [h0] at hl
      · simp only [h0, if_false, List.mem_singleton] at hl
        subst hl
        refine ⟨by simp [String.toList], ?_⟩
        intro hm
        rcases List.mem_append.1 hm with h | h
        · revert h; decide
        · exact ht h
  obtain ⟨header, h1, h2, h3, c, cs, h4, _⟩ :=
    wire_lines _ (List.cons_ne_nil _ _) hlines content
  have hpay : buildPayload analysis fromDate toDate content
      = header ++ '\n' :: '\n' :: content := by
    rw [buildPayload_lines, h1]
    simp
  have hframe := splitHeaderBody_framed header content (by rw [h4]; simp) h3
  refine ⟨header, ?_, ?_, ?_⟩
  · rw [hpay]; exact hframe
  · unfold parseHeader
    rw [h2]
    exact headerLines_values analysis fromDate toDate
  · intro parseJson dump
    unfold handleClient
    rw [hpay, hframe]

theorem wire_round_trip_witness :
    ∃ header, splitHeaderBody
          (buildPayload "USER".toList [] "2024-01-31".toList "\n\n[1]\n\nx".toList)
          = .framed header "\n\n[1]\n\nx".toList
      ∧ parseHeader header
          = some { analysisStr := "USER".toList, fromDate := [],
                   toDate := "2024-01-31".toList }
      ∧ ∀ (parseJson : Str → Option Json) (dump : Json → Str),
          handleClient parseJson dump
              (buildPayload "USER".toList [] "2024-01-31".toList "\n\n[1]\n\nx".toList)
            = serve parseJson dump header "\n\n[1]\n\nx".toList :=
  wire_round_trip "USER".toList [] "2024-01-31".toList "\n\n[1]\n\nx".toList
    (by decide) (by decide) (by decide)

theorem entryAt_block (s : Str) (pos start stop : Nat)
    (h1 : findFrom "<log>".toList s pos = some start)
    (h2 : findFrom "</log>".toList s start = some stop) :
    entryAt s (start, stop) = entryOfBlock (blockAt s (start, stop)) := by
  obtain ⟨_, a2, a3, _, _⟩ := span_facts s pos start stop h1 h2
  obtain ⟨hgap, _⟩ := entry_facts s pos start stop h1 h2
  unfold entryAt entryOfBlock blockAt
  simp only [List.length_take, List.length_drop]
  rw [List.drop_take, List.drop_drop, List.take_take]
  congr 1
  omega

theorem xmlSpans_entryOfBlock (s : Str) :
    ∀ fuel pos, (xmlSpans s fuel pos).map (entryAt s)
      = ((xmlSpans s fuel pos).map (blockAt s)).map entryOfBlock := by
  intro fuel
  induction fuel with
  | zero => intro pos; rfl
  | succ fuel ih =>
    intro pos
    unfold xmlSpans
    cases hs : findFrom "<log>".toList s pos with
    | none => rfl
    | some start =>
      simp only
      cases he : findFrom "</log>".toList s start with
      | none => rfl
      | some stop =>
        simp only [List.map_cons]
        rw [ih, entryAt_block s pos start stop hs he]

theorem xmlEntries_blocks (s : Str) : xmlEntries s = (xmlBlocks s).map entryOfBlock := by
  unfold xmlEntries xmlBlocks
  exact xmlSpans_entryOfBlock s _ _

theorem blockKept_unbounded (b : Str) : blockKept [] [] b = true := rfl

/-- C22. With no bounds the XML filter is transparent to the parser: `filterXmlByDate` with
both dates empty returns a text, and on that text `XMLParser::parse` returns, for every
analysis type, the table it returns on the body itself. -/
theorem xml_filter_transparent (xmlBody : Str) (type : AnalysisType) :
    ∃ out, filterXmlByDate xmlBody [] [] = some out
      ∧ XMLParser.parse out type = XMLParser.parse xmlBody type
      ∧ xmlEntries out = xmlEntries xmlBody := by
  have hall : (xmlBlocks xmlBody).filter (blockKept [] []) = xmlBlocks xmlBody := by
    rw [List.filter_eq_self]
    intro b _
    exact blockKept_unbounded b
  have hblock : ∀ b ∈ xmlBlocks xmlBody, IsBlock b :=
    fun b hb => xmlSpans_isBlock xmlBody _ _ b hb
  have hre := xmlBlocks_wrapped _ hblock
  have hent : xmlEntries ("<logs>".toList ++ (xmlBlocks xmlBody).flatten ++ "</logs>".toList)
      = xmlEntries xmlBody := by
    rw [xmlEntries_blocks, hre, ← xmlEntries_blocks]
  refine ⟨"<logs>".toList ++ (xmlBlocks xmlBody).flatten ++ "</logs>".toList, ?_, ?_, hent⟩
  · rw [filterXmlByDate_eq, hall]
  · rw [xmlParse_entries, xmlParse_entries, hent]

/-- C23. The block scans of `XMLParser::parse` and `filterXmlByDate` are total. Whenever the
scan at position `pos` finds `<log>` at `start` and then `</log>` at `stop`, `stop` is at
least `start + 5` and the block ends within the text, so the length `stop - (start + 5)` does
not wrap and both `substr` calls return; the next position `stop + 6` is greater than `pos`.
The tag lookup returns on every text, and both functions return a result on every input. -/
theorem xml_scans_total (s fromDate toDate : Str) (type : AnalysisType) :
    (∀ pos start stop, findFrom "<log>".toList s pos = some start →
        findFrom "</log>".toList s start = some stop →
        pos ≤ start ∧ start + 5 ≤ stop ∧ stop + 6 ≤ s.length ∧ pos < stop + 6
          ∧ sizeSub stop (start + 5) = stop - (start + 5)
          ∧ sizeSub (stop + 6) start = stop + 6 - start
          ∧ substr s (start + 5) (sizeSub stop (start + 5)) = some (entryAt s (start, stop))
          ∧ substr s start (sizeSub (stop + 6) start) = some (blockAt s (start, stop)))
      ∧ (∀ entry tag, ∃ value, getTagValue entry tag = some value)
      ∧ (∀ logBlock, ∃ date, xmlDate logBlock = some date)
      ∧ (∃ table, XMLParser.parse s type = some table)
      ∧ (∃ out, filterXmlByDate s fromDate toDate = some out) := by
  refine ⟨?_, getTagValue_isSome, xmlDate_isSome, ⟨_, xmlParse_entries s type⟩,
    ⟨_, filterXmlByDate_eq s fromDate toDate⟩⟩
  intro pos start stop h1 h2
  obtain ⟨a1, a2, a3, a4, _⟩ := span_facts s pos start stop h1 h2
  obtain ⟨hgap, hsub⟩ := entry_facts s pos start stop h1 h2
  exact ⟨a1, hgap, a3, by omega, sizeSub_of_le _ _ hgap, sizeSub_of_le _ _ (by omega),
    hsub, a4⟩

theorem xml_scans_total_witness :
    0 ≤ 3 ∧ 3 + 5 ≤ 9 ∧ 9 + 6 ≤ ("ab <log>x</log>".toList).length ∧ 0 < 9 + 6
      ∧ sizeSub 9 (3 + 5) = 9 - (3 + 5)
      ∧ sizeSub (9 + 6) 3 = 9 + 6 - 3
      ∧ substr "ab <log>x</log>".toList (3 + 5) (sizeSub 9 (3 + 5))
          = some (entryAt "ab <log>x</log>".toList (3, 9))
      ∧ substr "ab <log>x</log>".toList 3 (sizeSub (9 + 6) 3)
          = some (blockAt "ab <log>x</log>".toList (3, 9)) :=
  (xml_scans_total "ab <log>x</log>".toList [] [] .BY_IP).1 0 3 9 (by decide) (by decide)

end LogAnalyzer
